import Mathlib

/-!
Verification of the SQL editing engine of the dibber repository.

Strings are modelled as `List Char` (the Go code indexes bytes; all inputs of
interest are ASCII, where bytes and characters coincide).  Each definition is a
direct translation of the corresponding Go function.
-/

namespace Dibber

/-- Go `unicode.IsSpace` restricted to the code points it recognises in
`strings.TrimSpace` (Latin-1 range). -/
def goIsSpace (c : Char) : Bool :=
  c = ' ' || c = '\t' || c = '\n' || c = Char.ofNat 11 || c = Char.ofNat 12 ||
  c = '\r' || c = Char.ofNat 133 || c = Char.ofNat 160

/-- Go `strings.TrimSpace`, left half. -/
def trimLeft (l : List Char) : List Char := l.dropWhile goIsSpace

/-- Go `strings.TrimSpace`, right half. -/
def trimRight (l : List Char) : List Char := (l.reverse.dropWhile goIsSpace).reverse

/-- Go `strings.TrimSpace`. -/
def trimSpace (l : List Char) : List Char := trimRight (trimLeft l)

/-- Go `strings.HasPrefix s pre`. -/
def hasPrefixL : List Char → List Char → Bool
  | _, [] => true
  | [], _ :: _ => false
  | c :: s, p :: pre => c = p && hasPrefixL s pre

/-- Go `strings.Contains s sub`. -/
def containsL : List Char → List Char → Bool
  | s, sub =>
    if hasPrefixL s sub then true
    else
      match s with
      | [] => false
      | _ :: t => containsL t sub

/-- Go `strings.Index s sub` (as an `Option` instead of `-1`). -/
def indexOfSub : List Char → List Char → Option Nat
  | s, sub =>
    if hasPrefixL s sub then some 0
    else
      match s with
      | [] => none
      | _ :: t => (indexOfSub t sub).map (· + 1)

/-- Go `strings.ToUpper` (ASCII, as used on SQL keywords). -/
def toUpperL (l : List Char) : List Char := l.map Char.toUpper

/-- Go `strings.ToLower` (ASCII). -/
def toLowerL (l : List Char) : List Char := l.map Char.toLower

/-- Go `strings.Join` with separator `", "`. -/
def joinComma : List (List Char) → List Char
  | [] => []
  | [s] => s
  | s :: t :: rest => s ++ ", ".toList ++ joinComma (t :: rest)

/-- The column type enumeration of `types.go`. -/
inductive ColumnType
  | text | numeric | boolean | datetime | blob | unknown
deriving DecidableEq, Repr

/-- `types.go`: `func (ct ColumnType) IsNumeric() bool`. -/
def ColumnType.IsNumericCT (ct : ColumnType) : Bool := ct = .numeric

/-- `types.go`: `func (ct ColumnType) IsBooleanCT() bool` (source: `IsBoolean`). -/
def ColumnType.IsBooleanCT (ct : ColumnType) : Bool := ct = .boolean

/-- `types.go`: `CellValue` — a database cell with NULL awareness. -/
structure CellValue where
  Value : List Char
  IsNull : Bool
deriving DecidableEq, Repr

/-- `types.go`: `QueryMeta` — parsed metadata about a SELECT query. -/
structure QueryMeta where
  TableName : List Char
  IsEditable : Bool
  IDColumn : List Char
  IDIndex : Nat
deriving DecidableEq, Repr

/-- `categorizeColumnType` (query.go): map a driver type name to a category by
case-insensitive substring matching against keyword lists, checked in order
Numeric, Boolean, Datetime, Blob, Text; otherwise Unknown. -/
def categorizeColumnType (dbTypeName : List Char) : ColumnType :=
  let typeName := toUpperL dbTypeName
  let numericTypes := ["INT", "INTEGER", "SMALLINT", "BIGINT", "TINYINT", "MEDIUMINT",
    "DECIMAL", "NUMERIC", "FLOAT", "DOUBLE", "REAL",
    "INT2", "INT4", "INT8", "FLOAT4", "FLOAT8",
    "SERIAL", "BIGSERIAL", "SMALLSERIAL", "MONEY"].map String.toList
  if numericTypes.any (fun nt => containsL typeName nt) then .numeric
  else
    let booleanTypes := ["BOOL", "BOOLEAN", "BIT"].map String.toList
    if booleanTypes.any (fun bt => containsL typeName bt) then .boolean
    else
      let dateTypes := ["DATE", "TIME", "DATETIME", "TIMESTAMP",
        "TIMESTAMPTZ", "TIMETZ", "YEAR", "INTERVAL"].map String.toList
      if dateTypes.any (fun dt => containsL typeName dt) then .datetime
      else
        let blobTypes := ["BLOB", "BINARY", "VARBINARY", "BYTEA",
          "TINYBLOB", "MEDIUMBLOB", "LONGBLOB"].map String.toList
        if blobTypes.any (fun bt => containsL typeName bt) then .blob
        else
          let textTypes := ["CHAR", "VARCHAR", "TEXT", "STRING",
            "TINYTEXT", "MEDIUMTEXT", "LONGTEXT",
            "NCHAR", "NVARCHAR", "NTEXT",
            "UUID", "JSON", "JSONB", "XML", "ENUM", "SET"].map String.toList
          if textTypes.any (fun tt => containsL typeName tt) then .text
          else .unknown

/-- `escapeSQLString` (query.go): double every single quote. -/
def escapeSQLString (s : List Char) : List Char :=
  s.foldr (fun c acc => if c = '\x27' then '\x27' :: '\x27' :: acc else c :: acc) []

/-- Go digit test `ch >= '0' && ch <= '9'`. -/
def isDigitC (c : Char) : Bool := '0' ≤ c && c ≤ '9'

/-- Drop a single leading `+`/`-` sign (the `s = s[1:]` step of `isValidNumber`
and the exponent-sign step). -/
def dropSign : List Char → List Char
  | [] => []
  | c :: rest => if c = '+' || c = '-' then rest else c :: rest

/-- The character loop of `isValidNumber` (query.go), carrying the `hasDecimal`
and `hasDigit` flags. -/
def vnLoop : List Char → Bool → Bool → Bool
  | [], _, hasDigit => hasDigit
  | c :: rest, hasDecimal, hasDigit =>
    if isDigitC c then vnLoop rest hasDecimal true
    else if c = '.' && !hasDecimal then vnLoop rest true hasDigit
    else if (c = 'e' || c = 'E') && hasDigit && !rest.isEmpty then
      let rest1 := dropSign rest
      !rest1.isEmpty && rest1.all isDigitC
    else false

/-- `isValidNumber` (query.go): does the string look like a SQL number literal. -/
def isValidNumber (s : List Char) : Bool :=
  let t := trimSpace s
  if t.isEmpty then false
  else
    let t1 := dropSign t
    if t1.isEmpty then false
    else vnLoop t1 false false

/-- The number grammar as worded by the spec (§4.5 Contract B): after trimming
whitespace and an optional single leading sign, the string is digits with at
most one decimal point and at least one digit, optionally followed by `e`/`E`
with an optional sign and one-or-more digits.  Stated from the spec, for
comparison with `isValidNumber`. -/
def specNumberGrammar (s : List Char) : Bool :=
  let t1 := dropSign (trimSpace s)
  let mant := t1.takeWhile (fun c => !(c = 'e' || c = 'E'))
  let rest := t1.drop mant.length
  mant.all (fun c => isDigitC c || c = '.') &&
  mant.count '.' ≤ 1 &&
  mant.any isDigitC &&
  (rest.isEmpty ||
    (let e1 := dropSign (rest.drop 1)
     !e1.isEmpty && e1.all isDigitC))

/-- Bridge form of the spec grammar used in the equivalence proof: the grammar
of `specNumberGrammar` generalized over the `hasDecimal`/`hasDigit` flags of
the `isValidNumber` loop. -/
def mantExpB (l : List Char) (hasDec hasDig : Bool) : Bool :=
  let mant := l.takeWhile (fun c => !(c = 'e' || c = 'E'))
  let rest := l.drop mant.length
  mant.all (fun c => isDigitC c || c = '.') &&
  decide (mant.count '.' + (if hasDec then 1 else 0) ≤ 1) &&
  (hasDig || mant.any isDigitC) &&
  (rest.isEmpty || (!(dropSign (rest.drop 1)).isEmpty && (dropSign (rest.drop 1)).all isDigitC))

/-- `formatValueForSQL` (query.go, README version): format a value as a SQL
literal according to its NULL state, column category and dialect token. -/
def formatValueForSQL (value : List Char) (isNull : Bool) (colType : ColumnType)
    (dbType : List Char) : List Char :=
  if isNull then "NULL".toList
  else if value.isEmpty then "\x27\x27".toList
  else if colType.IsNumericCT then
    if isValidNumber value then value
    else '\x27' :: (escapeSQLString value ++ ['\x27'])
  else if colType.IsBooleanCT then
    let lower := toLowerL value
    if lower = "true".toList || lower = "1".toList || lower = "yes".toList ||
       lower = "on".toList || lower = "t".toList then
      if dbType = "mysql".toList then "1".toList else "TRUE".toList
    else if lower = "false".toList || lower = "0".toList || lower = "no".toList ||
       lower = "off".toList || lower = "f".toList then
      if dbType = "mysql".toList then "0".toList else "FALSE".toList
    else '\x27' :: (escapeSQLString value ++ ['\x27'])
  else '\x27' :: (escapeSQLString value ++ ['\x27'])

/-- `quoteIdentifier` (utility file): the identifier quote character for a
database type token. -/
def quoteIdentifier (dbType : List Char) : List Char :=
  if dbType = "mysql".toList then "`".toList
  else if dbType = "postgres".toList || dbType = "postgresql".toList ||
          dbType = "pg".toList then "\"".toList
  else if dbType = "sqlite".toList || dbType = "sqlite3".toList then "\"".toList
  else "\"".toList

/-! ### The statement splitter (`splitter.go`, `SplitStatements`)

The Go function is a single left-to-right scan with inner loops for the four
quoted/commented regions.  It is embedded as a mode machine: the mode records
which inner loop the scan is inside, and each step consumes the same one or two
bytes the Go code consumes (the two-byte cases are the Go look-aheads
`sql[i+1]`). -/

/-- The scanning mode of `SplitStatements`: normal text, `--` line comment,
block comment, single-quoted string, double-quoted string. -/
inductive ScanMode
  | normal | line | block | squote | dquote
deriving DecidableEq, Repr

/-- Close the current statement: trim it and append it to the accumulator only
if non-empty (the `if stmt != ""` checks of `SplitStatements`). -/
def emitStmt (cur : List Char) (acc : List (List Char)) : List (List Char) :=
  let stmt := trimSpace cur
  if stmt.isEmpty then acc else acc ++ [stmt]

/-- The scan loop of `SplitStatements`.  `cur` is the `current` builder, `acc`
the collected statements. -/
def splitLoop : ScanMode → List Char → List Char → List (List Char) → List (List Char)
  | _, [], cur, acc => emitStmt cur acc
  | .normal, '-' :: '-' :: rest, cur, acc => splitLoop .line rest (cur ++ ['-', '-']) acc
  | .normal, '/' :: '*' :: rest, cur, acc => splitLoop .block rest (cur ++ ['/', '*']) acc
  | .normal, '\x27' :: rest, cur, acc => splitLoop .squote rest (cur ++ ['\x27']) acc
  | .normal, '"' :: rest, cur, acc => splitLoop .dquote rest (cur ++ ['"']) acc
  | .normal, ';' :: rest, cur, acc => splitLoop .normal rest [] (emitStmt cur acc)
  | .normal, c :: rest, cur, acc => splitLoop .normal rest (cur ++ [c]) acc
  | .line, '\n' :: rest, cur, acc => splitLoop .normal rest (cur ++ ['\n']) acc
  | .line, c :: rest, cur, acc => splitLoop .line rest (cur ++ [c]) acc
  | .block, '*' :: '/' :: rest, cur, acc => splitLoop .normal rest (cur ++ ['*', '/']) acc
  | .block, c :: rest, cur, acc => splitLoop .block rest (cur ++ [c]) acc
  | .squote, '\x27' :: '\x27' :: rest, cur, acc => splitLoop .squote rest (cur ++ ['\x27', '\x27']) acc
  | .squote, '\x27' :: rest, cur, acc => splitLoop .normal rest (cur ++ ['\x27']) acc
  | .squote, '\\' :: c :: rest, cur, acc => splitLoop .squote rest (cur ++ ['\\', c]) acc
  | .squote, c :: rest, cur, acc => splitLoop .squote rest (cur ++ [c]) acc
  | .dquote, '"' :: '"' :: rest, cur, acc => splitLoop .dquote rest (cur ++ ['"', '"']) acc
  | .dquote, '"' :: rest, cur, acc => splitLoop .normal rest (cur ++ ['"']) acc
  | .dquote, c :: rest, cur, acc => splitLoop .dquote rest (cur ++ [c]) acc

/-- `SplitStatements` (splitter.go). -/
def SplitStatements (sql : List Char) : List (List Char) :=
  splitLoop .normal sql [] []

/-- Go `strings.Join(statements, ";")`. -/
def joinSemi : List (List Char) → List Char
  | [] => []
  | [s] => s
  | s :: t :: rest => s ++ ';' :: joinSemi (t :: rest)

/-! ### The query classifier (`query.go`, `parseQueryMeta`) -/

/-- `extractTableName` (query.go): trim, strip backticks, split on whitespace,
first token (empty when there is none). -/
def extractTableName (tablePart : List Char) : List Char :=
  let t := trimSpace tablePart
  let t := t.filter (fun c => c ≠ Char.ofNat 96)
  (t.dropWhile goIsSpace).takeWhile (fun c => !goIsSpace c)

/-- The aggregate/grouping tokens that disqualify a query from editing. -/
def aggregateFuncs : List (List Char) :=
  ["COUNT(", "SUM(", "AVG(", "MIN(", "MAX(", "GROUP_CONCAT(",
   "GROUP BY", "HAVING", "DISTINCT"].map String.toList

/-- The `id`-column search of `parseQueryMeta`: first column whose lowercased
name is `id`, with its index. -/
def findIdCol : List (List Char) → Nat → Option (Nat × List Char)
  | [], _ => none
  | col :: rest, i =>
    if toLowerL col = "id".toList then some (i, col) else findIdCol rest (i + 1)

/-- `parseQueryMeta` (query.go): decide whether a SELECT is editable and
extract the target table and id column.  The executed result is modelled by
its column-name list (the `result == nil`/error guard is outside the model). -/
def parseQueryMeta (query : List Char) (columns : List (List Char)) : Option QueryMeta :=
  let query := trimSpace query
  let upperQuery := toUpperL query
  if !hasPrefixL upperQuery "SELECT".toList then none
  else if aggregateFuncs.any (fun agg => containsL upperQuery agg) then
    some ⟨[], false, [], 0⟩
  else if containsL upperQuery " JOIN ".toList then some ⟨[], false, [], 0⟩
  else
    match indexOfSub upperQuery " FROM ".toList with
    | none => some ⟨[], false, [], 0⟩
    | some fromIdx =>
      let afterFrom := query.drop (fromIdx + 6)
      let tablePart :=
        match indexOfSub (toUpperL afterFrom) " WHERE ".toList with
        | some whereIdx => afterFrom.take whereIdx
        | none => afterFrom
      let tablePart :=
        ([" ORDER BY ", " LIMIT ", " GROUP BY "].map String.toList).foldl
          (fun tp kw =>
            match indexOfSub (toUpperL tp) kw with
            | some idx => tp.take idx
            | none => tp) tablePart
      let tablePart := trimSpace tablePart
      if containsL tablePart ",".toList then some ⟨[], false, [], 0⟩
      else
        let tableName := extractTableName tablePart
        if tableName.isEmpty then some ⟨[], false, [], 0⟩
        else
          match findIdCol columns 0 with
          | none => some ⟨[], false, [], 0⟩
          | some (idIndex, idColumn) => some ⟨tableName, true, idColumn, idIndex⟩

/-! ### The statement locator (`query.go`, `getQueryUnderCursor`) -/

/-- Go `strings.Split(content, "\n")`. -/
def splitLines : List Char → List (List Char)
  | [] => [[]]
  | '\n' :: rest => [] :: splitLines rest
  | c :: rest =>
    match splitLines rest with
    | [] => [[c]]
    | l :: ls => (c :: l) :: ls

/-- The cursor-offset computation of `getQueryUnderCursor`: characters of the
lines above the cursor line (plus their newlines) plus half the cursor line. -/
def cursorOffset (content : List Char) (cursorLine : Nat) : Nat :=
  let lines := splitLines content
  ((lines.take cursorLine).map (fun l => l.length + 1)).sum +
    (match lines.get? cursorLine with
     | some l => l.length / 2
     | none => 0)

/-- The semicolon positions of the buffer from index `i` on (the
`for i, ch := range content` loop of `getQueryUnderCursor`). -/
def semiPositionsFrom : Nat → List Char → List Nat
  | _, [] => []
  | i, c :: rest =>
    if c = ';' then i :: semiPositionsFrom (i + 1) rest
    else semiPositionsFrom (i + 1) rest

/-- All semicolon positions of the buffer (quote-unaware, as in the source). -/
def semiPositions (content : List Char) : List Nat :=
  semiPositionsFrom 0 content

/-- Extract, trim and semicolon-strip the segment `content[queryStart:semiPos+1]`. -/
def processSeg (content : List Char) (queryStart semiPos : Nat) : List Char :=
  let query := trimSpace ((content.take (semiPos + 1)).drop queryStart)
  let query := if query.getLast? = some ';' then query.dropLast else query
  trimSpace query

/-- The segment-search loop of `getQueryUnderCursor`. -/
def segLoop (content : List Char) (cursorPos : Nat) : Nat → List Nat → Option (List Char)
  | _, [] => none
  | queryStart, semiPos :: rest =>
    if cursorPos ≤ semiPos then some (processSeg content queryStart semiPos)
    else segLoop content cursorPos (semiPos + 1) rest

/-- `getQueryUnderCursor` (query.go): the statement containing the cursor, or
empty.  The textarea is modelled by its content and the cursor line. -/
def getQueryUnderCursor (content : List Char) (cursorLine : Nat) : List Char :=
  if (trimSpace content).isEmpty then []
  else
    let cursorPos := cursorOffset content cursorLine
    match semiPositions content with
    | [] => []
    | s :: ss =>
      match segLoop content cursorPos 0 (s :: ss) with
      | some q => q
      | none =>
        let lastSemi := (s :: ss).getLast (by simp)
        let queryStart := lastSemi + 1
        let remaining := trimSpace (content.drop queryStart)
        if remaining.isEmpty then
          let prevStart :=
            if (s :: ss).length > 1 then ((s :: ss).getD ((s :: ss).length - 2) 0) + 1
            else 0
          processSeg content prevStart lastSemi
        else []

/-! ### The statement generators (`query.go`, README version) -/

/-- The detail-view state read by the generators: original cells, current
input texts, current NULL flags, column categories (parallel arrays). -/
structure DetailView where
  originalValues : List CellValue
  inputs : List (List Char)
  isNull : List Bool
  columnTypes : List ColumnType

/-- The slice of the TUI model consumed by the generators. -/
structure EditModel where
  dbType : List Char
  columns : List (List Char)
  queryMeta : Option QueryMeta
  detailView : Option DetailView

/-- `generateUpdateSQL` (query.go): UPDATE with the changed fields, keyed on
the original id value. -/
def generateUpdateSQL (m : EditModel) : List Char :=
  match m.detailView, m.queryMeta with
  | some dv, some qm =>
    if !qm.IsEditable then []
    else
      let q := quoteIdentifier m.dbType
      let setClauses := (List.range dv.inputs.length).filterMap (fun i =>
        let newVal := dv.inputs.getD i []
        let newIsNull := dv.isNull.getD i false
        let origVal := dv.originalValues.getD i ⟨[], false⟩
        if newVal ≠ origVal.Value || newIsNull ≠ origVal.IsNull then
          some (q ++ m.columns.getD i [] ++ q ++ " = ".toList ++
            formatValueForSQL newVal newIsNull (dv.columnTypes.getD i .text) m.dbType)
        else none)
      if setClauses.isEmpty then []
      else
        let idVal := dv.originalValues.getD qm.IDIndex ⟨[], false⟩
        let idColType := dv.columnTypes.getD qm.IDIndex .text
        let formattedID := formatValueForSQL idVal.Value false idColType m.dbType
        "UPDATE ".toList ++ q ++ qm.TableName ++ q ++ " SET ".toList ++
          joinComma setClauses ++ " WHERE ".toList ++ q ++ qm.IDColumn ++ q ++
          " = ".toList ++ formattedID
  | _, _ => []

/-- `generateDeleteSQL` (query.go): DELETE keyed on the original id value. -/
def generateDeleteSQL (m : EditModel) : List Char :=
  match m.detailView, m.queryMeta with
  | some dv, some qm =>
    if !qm.IsEditable then []
    else
      let q := quoteIdentifier m.dbType
      let idVal := dv.originalValues.getD qm.IDIndex ⟨[], false⟩
      let idColType := dv.columnTypes.getD qm.IDIndex .text
      let formattedID := formatValueForSQL idVal.Value false idColType m.dbType
      "DELETE FROM ".toList ++ q ++ qm.TableName ++ q ++ " WHERE ".toList ++
        q ++ qm.IDColumn ++ q ++ " = ".toList ++ formattedID
  | _, _ => []

/-- `generateInsertSQL` (query.go): INSERT over every column except the id
column, with the current values. -/
def generateInsertSQL (m : EditModel) : List Char :=
  match m.detailView, m.queryMeta with
  | some dv, some qm =>
    if !qm.IsEditable then []
    else
      let q := quoteIdentifier m.dbType
      let pairs := (List.range dv.inputs.length).filterMap (fun i =>
        if i = qm.IDIndex then none
        else
          some (q ++ m.columns.getD i [] ++ q,
            formatValueForSQL (dv.inputs.getD i []) (dv.isNull.getD i false)
              (dv.columnTypes.getD i .text) m.dbType))
      "INSERT INTO ".toList ++ q ++ qm.TableName ++ q ++ " (".toList ++
        joinComma (pairs.map Prod.fst) ++ ") VALUES (".toList ++
        joinComma (pairs.map Prod.snd) ++ ")".toList
  | _, _ => []

/-! ### A character-level automaton equivalent to the splitter scan

`splitLoop` consumes two characters at once wherever the Go code looks ahead at
`sql[i+1]`.  For reasoning about rescanning statements we use an equivalent
one-character automaton whose extra states record a pending look-ahead
(`nDash` = just saw `-` in normal mode, `bStar` = just saw `*` in a block
comment, and so on).  `stepA` returns `none` exactly on a statement-terminating
semicolon. -/

/-- States of the character-level scan automaton. -/
inductive AState
  | normal | nDash | nSlash | line | block | bStar | squote | sqEsc | sqQ | dquote | dqQ
deriving DecidableEq, Repr

/-- One step of the automaton from plain normal mode. -/
def stepNormal (c : Char) : Option AState :=
  if c = '-' then some .nDash
  else if c = '/' then some .nSlash
  else if c = '\x27' then some .squote
  else if c = '"' then some .dquote
  else if c = ';' then none
  else some .normal

/-- One step of the scan automaton; `none` marks a statement boundary. -/
def stepA : AState → Char → Option AState
  | .normal, c => stepNormal c
  | .nDash, c => if c = '-' then some .line else stepNormal c
  | .nSlash, c => if c = '*' then some .block else stepNormal c
  | .line, c => if c = '\n' then some .normal else some .line
  | .block, c => if c = '*' then some .bStar else some .block
  | .bStar, c => if c = '/' then some .normal else if c = '*' then some .bStar else some .block
  | .squote, c => if c = '\x27' then some .sqQ else if c = '\\' then some .sqEsc else some .squote
  | .sqEsc, _ => some .squote
  | .sqQ, c => if c = '\x27' then some .squote else stepNormal c
  | .dquote, c => if c = '"' then some .dqQ else some .dquote
  | .dqQ, c => if c = '"' then some .dquote else stepNormal c

/-- Run the automaton; `none` if a statement boundary was crossed. -/
def runAuto : AState → List Char → Option AState
  | a, [] => some a
  | a, c :: rest =>
    match stepA a c with
    | none => none
    | some b => runAuto b rest

/-- Run the automaton across statement boundaries (a boundary resets the state
to normal mode), returning the state at end of input. -/
def scanFinal : AState → List Char → AState
  | a, [] => a
  | a, c :: rest =>
    scanFinal (match stepA a c with | none => .normal | some b => b) rest

/-- The text contains no unterminated single- or double-quoted literal: the
scan does not end inside a quote region. -/
def quotesClosed (text : List Char) : Bool :=
  match scanFinal .normal text with
  | .squote | .sqEsc | .dquote => false
  | _ => true

/-- The text contains a `--` line-comment introducer. -/
def hasDD (text : List Char) : Bool := containsL text ['-', '-']

/-- States at which an appended `;` terminates the current statement (the scan
is in normal mode, possibly with a pending one-character look-ahead). -/
def acceptish : AState → Bool
  | .normal | .nDash | .nSlash | .sqQ | .dqQ => true
  | _ => false

/-- The automaton run ends (without crossing a statement boundary) in a state
where an appended `;` terminates the statement. -/
def acceptRun (a : AState) (s : List Char) : Bool :=
  match runAuto a s with
  | some b => acceptish b
  | none => false

/-- Compatibility between an automaton state, the mode of `splitLoop`, and the
pending input: the look-ahead states are allowed only when the pending input
cannot complete their two-character token. -/
def stateOK : AState → ScanMode → List Char → Prop
  | .normal, .normal, _ => True
  | .nDash, .normal, s => s.head? ≠ some '-'
  | .nSlash, .normal, s => s.head? ≠ some '*'
  | .sqQ, .normal, s => s.head? ≠ some '\x27'
  | .dqQ, .normal, s => s.head? ≠ some '"'
  | .line, .line, _ => True
  | .block, .block, _ => True
  | .bStar, .block, s => s.head? ≠ some '/'
  | .squote, .squote, _ => True
  | .sqEsc, .squote, s => s = []
  | .dquote, .dquote, _ => True
  | _, _, _ => False

/-- The output shape `SplitStatements` guarantees: every statement is trimmed
and non-empty, every non-final statement rescans to an acceptable state, and
the final statement rescans without crossing a statement boundary. -/
def GoodOut (L : List (List Char)) : Prop :=
  (∀ x ∈ L, trimSpace x = x ∧ x ≠ []) ∧
  (∀ x ∈ L.dropLast, acceptRun AState.normal x = true) ∧
  (∀ x, L.getLast? = some x → (runAuto AState.normal x).isSome = true)

/-- Invariant of the statement accumulator during the scan: every collected
statement is trimmed, non-empty and rescans to an acceptable state. -/
def GoodAcc (acc : List (List Char)) : Prop :=
  ∀ x ∈ acc, trimSpace x = x ∧ x ≠ [] ∧ acceptRun AState.normal x = true

/-! ### Helper lemmas -/

theorem hasPrefixL_append_true (u v t : List Char) (h : hasPrefixL t (u ++ v) = true) :
    hasPrefixL t u = true := by
  induction u generalizing t with
  | nil => cases t <;> simp [hasPrefixL]
  | cons p u ih =>
    cases t with
    | nil => simp [hasPrefixL] at h
    | cons c t =>
      simp only [List.cons_append, hasPrefixL, Bool.and_eq_true, decide_eq_true_eq] at h ⊢
      exact ⟨h.1, ih t h.2⟩

theorem containsL_append_true (s u v : List Char) (h : containsL s (u ++ v) = true) :
    containsL s u = true := by
  induction s with
  | nil =>
    rw [containsL] at h ⊢
    split at h
    · next hp => rw [if_pos (hasPrefixL_append_true u v [] hp)]
    · exact absurd h (by simp)
  | cons c t ih =>
    rw [containsL] at h ⊢
    split at h
    · next hp => rw [if_pos (hasPrefixL_append_true u v _ hp)]
    · next hp =>
      have ht : containsL t u = true := ih h
      split
      · rfl
      · exact ht

/-! ### Claims -/

/-- Claim C9: because `categorizeColumnType` scans the numeric keyword list
(whose first entry is `INT`) before the datetime list using case-insensitive
substring matching, every driver type name containing `INT` — including
`INTERVAL` and `POINT` — is classified Numeric, so the `INTERVAL` entry of the
datetime list is unreachable: any name containing `INTERVAL` is also Numeric. -/
theorem claim_C9 :
    (∀ s : List Char, containsL (toUpperL s) ("INT".toList) = true →
      categorizeColumnType s = .numeric) ∧
    categorizeColumnType ("INTERVAL".toList) = .numeric ∧
    categorizeColumnType ("POINT".toList) = .numeric ∧
    (∀ s : List Char, containsL (toUpperL s) ("INTERVAL".toList) = true →
      categorizeColumnType s = .numeric) := by
  have base : ∀ s : List Char, containsL (toUpperL s) ("INT".toList) = true →
      categorizeColumnType s = .numeric := by
    intro s h
    have hany : (["INT", "INTEGER", "SMALLINT", "BIGINT", "TINYINT", "MEDIUMINT",
        "DECIMAL", "NUMERIC", "FLOAT", "DOUBLE", "REAL",
        "INT2", "INT4", "INT8", "FLOAT4", "FLOAT8",
        "SERIAL", "BIGSERIAL", "SMALLSERIAL", "MONEY"].map String.toList).any
        (fun nt => containsL (toUpperL s) nt) = true :=
      List.any_eq_true.mpr ⟨"INT".toList, by simp, h⟩
    simp only [categorizeColumnType, hany, if_true]
  refine ⟨base, base _ (by decide), base _ (by decide), ?_⟩
  intro s h
  apply base
  exact containsL_append_true _ _ ("ERVAL".toList) h

/-- Witness for C9 at the concrete type name `BIGINT`. -/
theorem claim_C9_witness : categorizeColumnType ("BIGINT".toList) = .numeric :=
  claim_C9.1 ("BIGINT".toList) (by decide)

/-- Claim C6: `formatValueForSQL` returns the literal `NULL` whenever `isNull`
is true, regardless of text, type and dialect; a non-null empty text formats
to `''`; and the two literals are distinct. -/
theorem claim_C6 :
    (∀ (value : List Char) (colType : ColumnType) (dbType : List Char),
      formatValueForSQL value true colType dbType = "NULL".toList) ∧
    (∀ (colType : ColumnType) (dbType : List Char),
      formatValueForSQL [] false colType dbType = "\x27\x27".toList) ∧
    "NULL".toList ≠ "\x27\x27".toList := by
  refine ⟨fun v ct d => by simp [formatValueForSQL],
    fun ct d => by simp [formatValueForSQL], by decide⟩

/-- Counterexample for C7: dialect tokens are matched case-sensitively, so
`MySQL` is not treated like `mysql` — neither by `quoteIdentifier` nor by the
boolean codec of `formatValueForSQL`. -/
theorem claim_C7_cex :
    quoteIdentifier ("MySQL".toList) ≠ quoteIdentifier ("mysql".toList) ∧
    formatValueForSQL ("true".toList) false .boolean ("MySQL".toList) ≠
      formatValueForSQL ("true".toList) false .boolean ("mysql".toList) := by
  decide

/-- Claim C7 (amended): `quoteIdentifier` returns a backtick exactly for the
token `mysql` and a double quote for `postgres`/`postgresql`/`pg`,
`sqlite`/`sqlite3` and every other token; the boolean codec emits `1`/`0`
exactly for `mysql` and `TRUE`/`FALSE` otherwise.  Tokens are compared
case-sensitively (no case normalization: `MySQL` is an unrecognized token). -/
theorem claim_C7 : ∀ dbType : List Char,
    quoteIdentifier dbType = (if dbType = "mysql".toList then "`".toList else "\"".toList) ∧
    formatValueForSQL ("true".toList) false .boolean dbType =
      (if dbType = "mysql".toList then "1".toList else "TRUE".toList) ∧
    formatValueForSQL ("false".toList) false .boolean dbType =
      (if dbType = "mysql".toList then "0".toList else "FALSE".toList) := by
  intro d
  refine ⟨?_, ?_, ?_⟩
  · unfold quoteIdentifier
    split_ifs <;> simp_all
  · have hlow : toLowerL ['t', 'r', 'u', 'e'] = ['t', 'r', 'u', 'e'] := by decide
    simp [formatValueForSQL, ColumnType.IsNumericCT, ColumnType.IsBooleanCT, hlow]
  · have hlow : toLowerL ['f', 'a', 'l', 's', 'e'] = ['f', 'a', 'l', 's', 'e'] := by decide
    simp [formatValueForSQL, ColumnType.IsNumericCT, ColumnType.IsBooleanCT, hlow]

theorem digit_facts (c : Char) (h : isDigitC c = true) : c ≠ 'e' ∧ c ≠ 'E' ∧ c ≠ '.' := by
  refine ⟨?_, ?_, ?_⟩ <;> rintro rfl <;> exact absurd h (by decide)

theorem vnLoop_eq_mantExpB (l : List Char) : ∀ hasDec hasDig : Bool,
    vnLoop l hasDec hasDig = mantExpB l hasDec hasDig := by
  induction l with
  | nil => intro hd hg; cases hd <;> cases hg <;> decide
  | cons c rest ih =>
    intro hd hg
    by_cases hdig : isDigitC c = true
    · obtain ⟨hne, hnE, hnd⟩ := digit_facts c hdig
      have hstep : vnLoop (c :: rest) hd hg = vnLoop rest hd true := by
        simp [vnLoop, hdig]
      rw [hstep, ih hd true]
      simp [mantExpB, List.takeWhile_cons, hne, hnE, List.count_cons, hnd, hdig]
    · by_cases hdot : c = '.'
      · subst hdot
        cases hd with
        | false =>
          have hstep : vnLoop ('.' :: rest) false hg = vnLoop rest true hg := by
            simp [vnLoop, hdig]
          rw [hstep, ih true hg]
          simp [mantExpB, List.takeWhile_cons, List.count_cons, hdig]
        | true =>
          have hstep : vnLoop ('.' :: rest) true hg = false := by
            simp [vnLoop, hdig]
          rw [hstep]
          simp [mantExpB, List.takeWhile_cons, List.count_cons, hdig]
      · by_cases hexp : c = 'e' ∨ c = 'E'
        · have hstep : vnLoop (c :: rest) hd hg =
              (hg && !rest.isEmpty &&
                (!(dropSign rest).isEmpty && (dropSign rest).all isDigitC)) := by
            rcases hexp with rfl | rfl <;> cases hg <;> cases rest <;>
              simp [vnLoop, hdig]
          have hRHS : mantExpB (c :: rest) hd hg =
              (hg && (!(dropSign rest).isEmpty && (dropSign rest).all isDigitC)) := by
            have hcond : (¬c = 'e' ∧ ¬c = 'E') = False := by
              rcases hexp with rfl | rfl <;> simp
            cases hd <;> simp [mantExpB, List.takeWhile_cons, hcond]
          rw [hstep, hRHS]
          cases rest <;> cases hg <;> simp [dropSign]
        · push_neg at hexp
          have hstep : vnLoop (c :: rest) hd hg = false := by
            simp [vnLoop, hdig, hdot, hexp.1, hexp.2]
          rw [hstep]
          have hcond : ¬c = 'e' ∧ ¬c = 'E' := ⟨hexp.1, hexp.2⟩
          simp [mantExpB, List.takeWhile_cons, hcond, hdig, hdot]

theorem specNumberGrammar_eq_mantExpB (s : List Char) :
    specNumberGrammar s = mantExpB (dropSign (trimSpace s)) false false := by
  simp [specNumberGrammar, mantExpB]

theorem isValidNumber_eq_spec (s : List Char) : isValidNumber s = specNumberGrammar s := by
  rw [specNumberGrammar_eq_mantExpB]
  unfold isValidNumber
  by_cases h1 : (trimSpace s).isEmpty
  · have ht : trimSpace s = [] := by simpa [List.isEmpty_iff] using h1
    simp [h1, ht, mantExpB, dropSign]
  · by_cases h2 : (dropSign (trimSpace s)).isEmpty
    · have ht : dropSign (trimSpace s) = [] := by simpa [List.isEmpty_iff] using h2
      simp [h1, h2, ht, mantExpB]
    · simp [h1, h2, vnLoop_eq_mantExpB]

/-- Claim C5: `isValidNumber` accepts exactly the spec's number grammar
(trimmed, one optional leading sign, digits with at most one decimal point and
at least one digit, optional `e`/`E` exponent with optional sign and 1+
digits); on a non-empty, non-null Numeric value, `formatValueForSQL` emits the
text verbatim exactly when `isValidNumber` accepts it and otherwise
single-quotes it with embedded quotes doubled; in particular `42` passes
through and `42x` is quoted. -/
theorem claim_C5 :
    (∀ s : List Char, isValidNumber s = specNumberGrammar s) ∧
    (∀ value dbType : List Char, value ≠ [] →
      formatValueForSQL value false .numeric dbType =
        (if isValidNumber value then value
         else '\x27' :: (escapeSQLString value ++ ['\x27']))) ∧
    formatValueForSQL ("42".toList) false .numeric ("sqlite".toList) = "42".toList ∧
    formatValueForSQL ("42x".toList) false .numeric ("sqlite".toList) = "\x2742x\x27".toList := by
  refine ⟨isValidNumber_eq_spec, ?_, by decide, by decide⟩
  intro v d hv
  have hne : v.isEmpty = false := by simpa [List.isEmpty_iff] using hv
  simp [formatValueForSQL, hne, ColumnType.IsNumericCT]

/-- Witness for C5 at the concrete value `42x` on dialect `pg`. -/
theorem claim_C5_witness :
    formatValueForSQL ("42x".toList) false .numeric ("pg".toList) = "\x2742x\x27".toList := by
  rw [claim_C5.2.1 ("42x".toList) ("pg".toList) (by decide)]
  decide

/-- Claim C3: `parseQueryMeta` on `SELECT * FROM users` with columns
`id, name` is editable with table `users` and id column `id` at index 0; every
SELECT whose upper-cased text contains ` JOIN ` or `COUNT(` yields the
non-editable QueryMeta; and table-name extraction strips backticks and drops
aliases, so `users AS u` and `users u` (and a backticked variant) all yield
`users`. -/
theorem claim_C3 :
    parseQueryMeta ("SELECT * FROM users".toList) ["id".toList, "name".toList] =
      some ⟨"users".toList, true, "id".toList, 0⟩ ∧
    (∀ (query : List Char) (columns : List (List Char)),
      hasPrefixL (toUpperL (trimSpace query)) ("SELECT".toList) = true →
      (containsL (toUpperL (trimSpace query)) (" JOIN ".toList) = true ∨
       containsL (toUpperL (trimSpace query)) ("COUNT(".toList) = true) →
      parseQueryMeta query columns = some ⟨[], false, [], 0⟩) ∧
    parseQueryMeta ("SELECT * FROM users AS u".toList) ["id".toList] =
      some ⟨"users".toList, true, "id".toList, 0⟩ ∧
    parseQueryMeta ("SELECT * FROM users u".toList) ["id".toList] =
      some ⟨"users".toList, true, "id".toList, 0⟩ ∧
    extractTableName ("users AS u".toList) = "users".toList ∧
    extractTableName ("users u".toList) = "users".toList ∧
    extractTableName ("`users` u".toList) = "users".toList := by
  refine ⟨by decide, ?_, by decide, by decide, by decide, by decide, by decide⟩
  intro q cols hsel hjc
  replace hsel : hasPrefixL (toUpperL (trimSpace q)) ['S', 'E', 'L', 'E', 'C', 'T'] = true := hsel
  by_cases hagg : (aggregateFuncs.any (fun agg => containsL (toUpperL (trimSpace q)) agg)) = true
  · simp [parseQueryMeta, hsel, hagg]
  · have hcount : containsL (toUpperL (trimSpace q)) ("COUNT(".toList) = false := by
      rcases hc : containsL (toUpperL (trimSpace q)) ("COUNT(".toList) with _ | _
      · rfl
      · exact absurd (List.any_eq_true.mpr ⟨"COUNT(".toList, by simp [aggregateFuncs], hc⟩) hagg
    have hjoin : containsL (toUpperL (trimSpace q)) [' ', 'J', 'O', 'I', 'N', ' '] = true := by
      rcases hjc with h | h
      · exact h
      · rw [hcount] at h; cases h
    simp [parseQueryMeta, hsel, hagg, hjoin]

/-- Witness for C3 at a concrete JOIN query. -/
theorem claim_C3_witness :
    parseQueryMeta ("SELECT a FROM u JOIN v ON u.x = v.x".toList) ["a".toList] =
      some ⟨[], false, [], 0⟩ :=
  claim_C3.2.1 ("SELECT a FROM u JOIN v ON u.x = v.x".toList) ["a".toList]
    (by decide) (Or.inl (by decide))

theorem update_shape (q T idc fid : List Char) (S : List (List Char)) :
    "UPDATE ".toList ++ q ++ T ++ q ++ " SET ".toList ++ joinComma S ++
      " WHERE ".toList ++ q ++ idc ++ q ++ " = ".toList ++ fid =
    ("UPDATE ".toList ++ q ++ T ++ q ++ " SET ".toList ++ joinComma S) ++
      " WHERE ".toList ++ q ++ idc ++ q ++ " = ".toList ++ fid := by
  simp [List.append_assoc]

/-- Claim C2: for every editable QueryMeta and every row-edit state (any
combination of edited inputs and null flags, including an edited id field),
the WHERE clause generated by `generateUpdateSQL` and by `generateDeleteSQL`
compares the id column against the original row's id cell value formatted with
`isNull = false`.  The WHERE fragment below mentions only `originalValues`,
never `inputs` or `isNull`, so the current (possibly edited) id input text
cannot appear in it. -/
theorem claim_C2 :
    ∀ (m : EditModel) (dv : DetailView) (qm : QueryMeta),
      m.detailView = some dv → m.queryMeta = some qm → qm.IsEditable = true →
      (generateUpdateSQL m ≠ [] → ∃ pre : List Char,
        generateUpdateSQL m = pre ++ " WHERE ".toList ++ quoteIdentifier m.dbType ++
          qm.IDColumn ++ quoteIdentifier m.dbType ++ " = ".toList ++
          formatValueForSQL (dv.originalValues.getD qm.IDIndex ⟨[], false⟩).Value false
            (dv.columnTypes.getD qm.IDIndex .text) m.dbType) ∧
      generateDeleteSQL m =
        "DELETE FROM ".toList ++ quoteIdentifier m.dbType ++ qm.TableName ++
          quoteIdentifier m.dbType ++ " WHERE ".toList ++ quoteIdentifier m.dbType ++
          qm.IDColumn ++ quoteIdentifier m.dbType ++ " = ".toList ++
          formatValueForSQL (dv.originalValues.getD qm.IDIndex ⟨[], false⟩).Value false
            (dv.columnTypes.getD qm.IDIndex .text) m.dbType := by
  intro m dv qm hdv hqm hed
  obtain ⟨dbt, cols, qmo, dvo⟩ := m
  simp only at hdv hqm
  subst hdv hqm
  constructor
  · intro hne
    rw [generateUpdateSQL] at hne ⊢
    simp only [hed, Bool.not_true, Bool.false_eq_true, if_false] at hne ⊢
    split at hne
    · exact absurd rfl hne
    · next hsc =>
      rw [if_neg hsc]
      exact ⟨_, update_shape (quoteIdentifier dbt) qm.TableName qm.IDColumn _ _⟩
  · rw [generateDeleteSQL]
    simp only [hed, Bool.not_true, Bool.false_eq_true, if_false]

/-- Witness for C2 at a concrete edited row (the name column changed, the id
input also changed, on MySQL). -/
theorem claim_C2_witness :
    ∃ pre : List Char,
      generateUpdateSQL
        ⟨"mysql".toList, ["id".toList, "name".toList],
         some ⟨"users".toList, true, "id".toList, 0⟩,
         some ⟨[⟨"5".toList, false⟩, ⟨"bob".toList, false⟩],
               ["99".toList, "alice".toList], [false, false], [.numeric, .text]⟩⟩ =
        pre ++ " WHERE ".toList ++ quoteIdentifier ("mysql".toList) ++
          "id".toList ++ quoteIdentifier ("mysql".toList) ++ " = ".toList ++
          formatValueForSQL ("5".toList) false .numeric ("mysql".toList) :=
  (claim_C2
    ⟨"mysql".toList, ["id".toList, "name".toList],
     some ⟨"users".toList, true, "id".toList, 0⟩,
     some ⟨[⟨"5".toList, false⟩, ⟨"bob".toList, false⟩],
           ["99".toList, "alice".toList], [false, false], [.numeric, .text]⟩⟩
    ⟨[⟨"5".toList, false⟩, ⟨"bob".toList, false⟩],
     ["99".toList, "alice".toList], [false, false], [.numeric, .text]⟩
    ⟨"users".toList, true, "id".toList, 0⟩ rfl rfl rfl).1 (by decide)

/-- Claim C10: for every editable QueryMeta whose result columns consist solely
of the id column (one input, id index 0), `generateInsertSQL` still returns the
non-empty statement `INSERT INTO <quoted table> () VALUES ()` with empty column
and value lists. -/
theorem claim_C10 :
    ∀ (m : EditModel) (dv : DetailView) (qm : QueryMeta) (v : List Char),
      m.detailView = some dv → m.queryMeta = some qm → qm.IsEditable = true →
      dv.inputs = [v] → qm.IDIndex = 0 →
      generateInsertSQL m =
        "INSERT INTO ".toList ++ quoteIdentifier m.dbType ++ qm.TableName ++
          quoteIdentifier m.dbType ++ " () VALUES ()".toList ∧
      generateInsertSQL m ≠ [] := by
  intro m dv qm v hdv hqm hed hin hidx
  obtain ⟨dbt, cols, qmo, dvo⟩ := m
  simp only at hdv hqm
  subst hdv hqm
  have hmain : generateInsertSQL ⟨dbt, cols, some qm, some dv⟩ =
      "INSERT INTO ".toList ++ quoteIdentifier dbt ++ qm.TableName ++
        quoteIdentifier dbt ++ " () VALUES ()".toList := by
    rw [generateInsertSQL]
    simp only [hed, Bool.not_true, Bool.false_eq_true, if_false]
    rw [hin]
    simp [hidx, joinComma, List.append_assoc]
  refine ⟨hmain, ?_⟩
  rw [hmain]
  simp

/-- Witness for C10 at a concrete single-column (id only) result on SQLite. -/
theorem claim_C10_witness :
    generateInsertSQL
      ⟨"sqlite".toList, ["id".toList], some ⟨"users".toList, true, "id".toList, 0⟩,
       some ⟨[⟨"5".toList, false⟩], ["5".toList], [false], [.numeric]⟩⟩ =
      "INSERT INTO ".toList ++ quoteIdentifier ("sqlite".toList) ++ "users".toList ++
        quoteIdentifier ("sqlite".toList) ++ " () VALUES ()".toList :=
  (claim_C10
    ⟨"sqlite".toList, ["id".toList], some ⟨"users".toList, true, "id".toList, 0⟩,
     some ⟨[⟨"5".toList, false⟩], ["5".toList], [false], [.numeric]⟩⟩
    ⟨[⟨"5".toList, false⟩], ["5".toList], [false], [.numeric]⟩
    ⟨"users".toList, true, "id".toList, 0⟩ ("5".toList) rfl rfl rfl rfl rfl).1

theorem semiPositionsFrom_nil (content : List Char) (h : ';' ∉ content) :
    ∀ i, semiPositionsFrom i content = [] := by
  induction content with
  | nil => intro i; rfl
  | cons c rest ih =>
    intro i
    simp only [List.mem_cons, not_or] at h
    rw [semiPositionsFrom, if_neg (by simpa using (Ne.symm h.1))]
    exact ih h.2 (i + 1)

theorem segLoop_none (content : List Char) (cursorPos : Nat) :
    ∀ (positions : List Nat) (qs : Nat), (∀ p ∈ positions, p < cursorPos) →
      segLoop content cursorPos qs positions = none := by
  intro positions
  induction positions with
  | nil => intro qs _; rfl
  | cons p rest ih =>
    intro qs hlt
    rw [segLoop, if_neg (by simpa using Nat.not_le_of_lt (hlt p (by simp)))]
    exact ih (p + 1) (fun x hx => hlt x (by simp [hx]))

/-- Claim C8: `getQueryUnderCursor` returns the empty string (a) for every
buffer containing no semicolon, regardless of cursor position, and (b)
whenever the cursor offset lies beyond every semicolon and the tail after the
last semicolon is non-empty after trimming — an unterminated trailing fragment
is never returned as an executable statement. -/
theorem claim_C8 :
    (∀ (content : List Char) (cursorLine : Nat), ';' ∉ content →
      getQueryUnderCursor content cursorLine = []) ∧
    (∀ (content : List Char) (cursorLine : Nat) (s : Nat) (ss : List Nat),
      semiPositions content = s :: ss →
      (∀ p ∈ s :: ss, p < cursorOffset content cursorLine) →
      trimSpace (content.drop ((s :: ss).getLast (List.cons_ne_nil s ss) + 1)) ≠ [] →
      getQueryUnderCursor content cursorLine = []) := by
  constructor
  · intro content cursorLine h
    by_cases htrim : (trimSpace content).isEmpty
    · simp [getQueryUnderCursor, htrim]
    · have hsp : semiPositions content = [] := semiPositionsFrom_nil content h 0
      simp [getQueryUnderCursor, htrim, hsp]
  · intro content cursorLine s ss hsemi hlt htail
    by_cases htrim : (trimSpace content).isEmpty
    · simp [getQueryUnderCursor, htrim]
    · have hseg : segLoop content (cursorOffset content cursorLine) 0 (s :: ss) = none :=
        segLoop_none content _ (s :: ss) 0 hlt
      have htail2 : (trimSpace
          (content.drop ((s :: ss).getLast (List.cons_ne_nil s ss) + 1))).isEmpty = false := by
        simpa [List.isEmpty_iff] using htail
      simp [getQueryUnderCursor, htrim, hsemi, hseg, htail2]

/-- Witness for C8 on a semicolon-free buffer. -/
theorem claim_C8_witness : getQueryUnderCursor ("SELECT 1".toList) 0 = [] :=
  claim_C8.1 ("SELECT 1".toList) 0 (by decide)

/-! ### Region-containment lemmas for the splitter -/

theorem isInfix_cons_of {α : Type} {p l : List α} (a : α) (h : p <:+: l) : p <:+: a :: l := by
  obtain ⟨s, t, rfl⟩ := h
  exact ⟨a :: s, t, by simp⟩

theorem run_squote (w : List Char) : ∀ (rest cur acc : _), '\x27' ∉ w → '\\' ∉ w →
    rest.head? ≠ some '\x27' →
    splitLoop .squote (w ++ '\x27' :: rest) cur acc =
      splitLoop .normal rest (cur ++ w ++ ['\x27']) acc := by
  induction w with
  | nil =>
    intro rest cur acc _ _ h3
    cases rest with
    | nil => simp [splitLoop]
    | cons r rs =>
      have hr : r ≠ '\x27' := by simpa using h3
      simp [splitLoop, hr]
  | cons c w ih =>
    intro rest cur acc h1 h2 h3
    simp only [List.mem_cons, not_or] at h1 h2
    have hstep : splitLoop .squote ((c :: w) ++ '\x27' :: rest) cur acc =
        splitLoop .squote (w ++ '\x27' :: rest) (cur ++ [c]) acc := by
      simp [splitLoop, Ne.symm h1.1, Ne.symm h2.1]
    rw [hstep, ih _ _ _ h1.2 h2.2 h3]
    simp

theorem run_dquote (w : List Char) : ∀ (rest cur acc : _), '"' ∉ w →
    rest.head? ≠ some '"' →
    splitLoop .dquote (w ++ '"' :: rest) cur acc =
      splitLoop .normal rest (cur ++ w ++ ['"']) acc := by
  induction w with
  | nil =>
    intro rest cur acc _ h3
    cases rest with
    | nil => simp [splitLoop]
    | cons r rs =>
      have hr : r ≠ '"' := by simpa using h3
      simp [splitLoop, hr]
  | cons c w ih =>
    intro rest cur acc h1 h3
    simp only [List.mem_cons, not_or] at h1
    have hstep : splitLoop .dquote ((c :: w) ++ '"' :: rest) cur acc =
        splitLoop .dquote (w ++ '"' :: rest) (cur ++ [c]) acc := by
      simp [splitLoop, Ne.symm h1.1]
    rw [hstep, ih _ _ _ h1.2 h3]
    simp

theorem run_line (w : List Char) : ∀ (rest cur acc : _), '\n' ∉ w →
    splitLoop .line (w ++ '\n' :: rest) cur acc =
      splitLoop .normal rest (cur ++ w ++ ['\n']) acc := by
  induction w with
  | nil =>
    intro rest cur acc _
    simp [splitLoop]
  | cons c w ih =>
    intro rest cur acc h1
    simp only [List.mem_cons, not_or] at h1
    have hstep : splitLoop .line ((c :: w) ++ '\n' :: rest) cur acc =
        splitLoop .line (w ++ '\n' :: rest) (cur ++ [c]) acc := by
      simp [splitLoop, Ne.symm h1.1]
    rw [hstep, ih _ _ _ h1.2]
    simp

theorem run_block (w : List Char) : ∀ (rest cur acc : _), ¬ (['*', '/'] <:+: w) →
    splitLoop .block (w ++ '*' :: '/' :: rest) cur acc =
      splitLoop .normal rest (cur ++ w ++ ['*', '/']) acc := by
  induction w with
  | nil =>
    intro rest cur acc _
    simp [splitLoop]
  | cons c w ih =>
    intro rest cur acc h1
    have hw : ¬ (['*', '/'] <:+: w) := fun h => h1 (isInfix_cons_of c h)
    have hstep : splitLoop .block ((c :: w) ++ '*' :: '/' :: rest) cur acc =
        splitLoop .block (w ++ '*' :: '/' :: rest) (cur ++ [c]) acc := by
      by_cases hc : c = '*'
      · subst hc
        cases w with
        | nil => simp [splitLoop]
        | cons d ds =>
          have hd : d ≠ '/' := by
            rintro rfl
            exact h1 ⟨[], ds, by simp⟩
          simp [splitLoop, hd]
      · cases w with
        | nil => simp [splitLoop, hc]
        | cons d ds => simp [splitLoop, hc]
    rw [hstep, ih _ _ _ hw]
    simp

/-- Claim C1: the splitter never splits at a semicolon inside a single-quoted
literal, a double-quoted literal, a `--` line comment, or a `/* */` block
comment: upon entering such a region the whole region (any semicolons
included) is appended to the current statement and scanning continues after
it.  In particular `SELECT 'a;b'; SELECT 2` splits into exactly the two
statements `SELECT 'a;b'` and `SELECT 2`. -/
theorem claim_C1 :
    (∀ (w rest cur acc : _), '\x27' ∉ w → '\\' ∉ w → rest.head? ≠ some '\x27' →
      splitLoop .normal ('\x27' :: (w ++ '\x27' :: rest)) cur acc =
        splitLoop .normal rest (cur ++ '\x27' :: (w ++ ['\x27'])) acc) ∧
    (∀ (w rest cur acc : _), '"' ∉ w → rest.head? ≠ some '"' →
      splitLoop .normal ('"' :: (w ++ '"' :: rest)) cur acc =
        splitLoop .normal rest (cur ++ '"' :: (w ++ ['"'])) acc) ∧
    (∀ (w rest cur acc : _), '\n' ∉ w →
      splitLoop .normal ('-' :: '-' :: (w ++ '\n' :: rest)) cur acc =
        splitLoop .normal rest (cur ++ '-' :: '-' :: (w ++ ['\n'])) acc) ∧
    (∀ (w rest cur acc : _), ¬ (['*', '/'] <:+: w) →
      splitLoop .normal ('/' :: '*' :: (w ++ '*' :: '/' :: rest)) cur acc =
        splitLoop .normal rest (cur ++ '/' :: '*' :: (w ++ ['*', '/'])) acc) ∧
    SplitStatements ("SELECT \x27a;b\x27; SELECT 2".toList) =
      ["SELECT \x27a;b\x27".toList, "SELECT 2".toList] := by
  refine ⟨?_, ?_, ?_, ?_, by decide⟩
  · intro w rest cur acc h1 h2 h3
    have hstep : splitLoop .normal ('\x27' :: (w ++ '\x27' :: rest)) cur acc =
        splitLoop .squote (w ++ '\x27' :: rest) (cur ++ ['\x27']) acc := by
      simp [splitLoop]
    rw [hstep, run_squote w _ _ _ h1 h2 h3]
    simp
  · intro w rest cur acc h1 h3
    have hstep : splitLoop .normal ('"' :: (w ++ '"' :: rest)) cur acc =
        splitLoop .dquote (w ++ '"' :: rest) (cur ++ ['"']) acc := by
      simp [splitLoop]
    rw [hstep, run_dquote w _ _ _ h1 h3]
    simp
  · intro w rest cur acc h1
    have hstep : splitLoop .normal ('-' :: '-' :: (w ++ '\n' :: rest)) cur acc =
        splitLoop .line (w ++ '\n' :: rest) (cur ++ ['-', '-']) acc := by
      simp [splitLoop]
    rw [hstep, run_line w _ _ _ h1]
    simp
  · intro w rest cur acc h1
    have hstep : splitLoop .normal ('/' :: '*' :: (w ++ '*' :: '/' :: rest)) cur acc =
        splitLoop .block (w ++ '*' :: '/' :: rest) (cur ++ ['/', '*']) acc := by
      simp [splitLoop]
    rw [hstep, run_block w _ _ _ h1]
    simp

/-- Witness for C1: the single-quote containment applied to the literal
`'a;b'` followed by `; SELECT 2`. -/
theorem claim_C1_witness :
    splitLoop .normal ('\x27' :: ("a;b".toList ++ '\x27' :: "; SELECT 2".toList)) [] [] =
      splitLoop .normal ("; SELECT 2".toList) ('\x27' :: ("a;b".toList ++ ['\x27'])) [] :=
  claim_C1.1 ("a;b".toList) ("; SELECT 2".toList) [] [] (by decide) (by decide) (by decide)

/-! ### The splitter round trip (C4): automaton lemmas -/

theorem runAuto_append (u : List Char) : ∀ (v : List Char) (a : AState),
    runAuto a (u ++ v) = (runAuto a u).bind (fun b => runAuto b v) := by
  induction u with
  | nil => intro v a; simp [runAuto]
  | cons c u ih =>
    intro v a
    cases h : stepA a c with
    | none => simp [runAuto, h]
    | some b => simp [runAuto, h, ih]

theorem acceptRun_nil (a : AState) : acceptRun a [] = acceptish a := rfl

theorem acceptRun_cons (a : AState) (c : Char) (s : List Char) :
    acceptRun a (c :: s) =
      (match stepA a c with | some b => acceptRun b s | none => false) := by
  cases h : stepA a c <;> simp [acceptRun, runAuto, h]

theorem emitStmt_append (cur : List Char) (acc1 acc2 : List (List Char)) :
    emitStmt cur (acc1 ++ acc2) = acc1 ++ emitStmt cur acc2 := by
  by_cases h : (trimSpace cur).isEmpty <;> simp [emitStmt, h]

theorem splitLoop_acc (m : ScanMode) (text cur : List Char) (acc2 : List (List Char)) :
    ∀ acc1, splitLoop m text cur (acc1 ++ acc2) = acc1 ++ splitLoop m text cur acc2 := by
  induction m, text, cur, acc2 using splitLoop.induct with
  | case1 m cur acc => intro acc1; simp [splitLoop, emitStmt_append]
  | case6 rest cur acc ih =>
    intro acc1
    rw [splitLoop, splitLoop, emitStmt_append]
    exact ih acc1
  | case2 rest cur acc ih => intro acc1; rw [splitLoop, splitLoop]; exact ih acc1
  | case3 rest cur acc ih => intro acc1; rw [splitLoop, splitLoop]; exact ih acc1
  | case4 rest cur acc ih => intro acc1; rw [splitLoop, splitLoop]; exact ih acc1
  | case5 rest cur acc ih => intro acc1; rw [splitLoop, splitLoop]; exact ih acc1
  | case7 c rest cur acc h1 h2 h3 h4 h5 ih =>
    intro acc1
    rw [splitLoop, splitLoop] <;> first | exact ih acc1 | assumption
  | case8 rest cur acc ih => intro acc1; rw [splitLoop, splitLoop]; exact ih acc1
  | case9 c rest cur acc h1 ih =>
    intro acc1
    rw [splitLoop, splitLoop] <;> first | exact ih acc1 | assumption
  | case10 rest cur acc ih => intro acc1; rw [splitLoop, splitLoop]; exact ih acc1
  | case11 c rest cur acc h1 ih =>
    intro acc1
    rw [splitLoop, splitLoop] <;> first | exact ih acc1 | assumption
  | case12 rest cur acc ih => intro acc1; rw [splitLoop, splitLoop]; exact ih acc1
  | case13 rest cur acc h1 ih =>
    intro acc1
    rw [splitLoop, splitLoop] <;> first | exact ih acc1 | assumption
  | case14 c rest cur acc ih => intro acc1; rw [splitLoop, splitLoop]; exact ih acc1
  | case15 c rest cur acc h1 h2 h3 ih =>
    intro acc1
    rw [splitLoop, splitLoop] <;> first | exact ih acc1 | assumption
  | case16 rest cur acc ih => intro acc1; rw [splitLoop, splitLoop]; exact ih acc1
  | case17 rest cur acc h1 ih =>
    intro acc1
    rw [splitLoop, splitLoop] <;> first | exact ih acc1 | assumption
  | case18 c rest cur acc h1 h2 ih =>
    intro acc1
    rw [splitLoop, splitLoop] <;> first | exact ih acc1 | assumption

theorem stepA_normal_of {a0 : AState} {c : Char} {s1 : List Char}
    (hok : stateOK a0 .normal (c :: s1)) : stepA a0 c = stepNormal c := by
  cases a0 <;> simp_all [stateOK, stepA]

theorem stepA_block_of {a0 : AState} {c : Char} {s1 : List Char}
    (hok : stateOK a0 .block (c :: s1)) :
    stepA a0 c = (if c = '*' then some .bStar else some .block) := by
  cases a0 <;> simp_all [stateOK, stepA]

theorem acceptRun_cons_of {a b : AState} {c : Char} (h : stepA a c = some b)
    (s : List Char) : acceptRun a (c :: s) = acceptRun b s := by
  simp [acceptRun_cons, h]

theorem acceptRun_cons_none {a : AState} {c : Char} (h : stepA a c = none)
    (s : List Char) : acceptRun a (c :: s) = false := by
  simp [acceptRun_cons, h]

theorem sl_norm_plain (c : Char) (l cur : List Char) (acc : List (List Char))
    (h1 : c = '-' → l.head? ≠ some '-') (h2 : c = '/' → l.head? ≠ some '*')
    (h3 : c ≠ '\x27') (h4 : c ≠ '"') (h5 : c ≠ ';') :
    splitLoop .normal (c :: l) cur acc = splitLoop .normal l (cur ++ [c]) acc := by
  cases l with
  | nil => simp [splitLoop, h3, h4, h5]
  | cons r rs =>
    by_cases hc1 : c = '-'
    · subst hc1
      have hr : r ≠ '-' := by simpa using h1 rfl
      simp [splitLoop, hr, h3, h4, h5]
    · by_cases hc2 : c = '/'
      · subst hc2
        have hr : r ≠ '*' := by simpa using h2 rfl
        simp [splitLoop, hr, h3, h4, h5]
      · simp [splitLoop, hc1, hc2, h3, h4, h5]

theorem sl_line_plain (c : Char) (l cur : List Char) (acc : List (List Char))
    (h : c ≠ '\n') :
    splitLoop .line (c :: l) cur acc = splitLoop .line l (cur ++ [c]) acc := by
  simp [splitLoop, h]

theorem sl_block_plain (c : Char) (l cur : List Char) (acc : List (List Char))
    (h : c = '*' → l.head? ≠ some '/') :
    splitLoop .block (c :: l) cur acc = splitLoop .block l (cur ++ [c]) acc := by
  cases l with
  | nil => simp [splitLoop]
  | cons r rs =>
    by_cases hc : c = '*'
    · subst hc
      have hr : r ≠ '/' := by simpa using h rfl
      simp [splitLoop, hr]
    · simp [splitLoop, hc]

theorem sl_squote_plain (c : Char) (l cur : List Char) (acc : List (List Char))
    (h1 : c ≠ '\x27') (h2 : c = '\\' → l = []) :
    splitLoop .squote (c :: l) cur acc = splitLoop .squote l (cur ++ [c]) acc := by
  cases l with
  | nil => simp [splitLoop, h1]
  | cons r rs =>
    have hc : c ≠ '\\' := by
      intro hh
      exact absurd (h2 hh) (by simp)
    simp [splitLoop, h1, hc]

theorem sl_dquote_plain (c : Char) (l cur : List Char) (acc : List (List Char))
    (h1 : c ≠ '"') :
    splitLoop .dquote (c :: l) cur acc = splitLoop .dquote l (cur ++ [c]) acc := by
  cases l with
  | nil => simp [splitLoop, h1]
  | cons r rs => simp [splitLoop, h1]

theorem sl_squote_close (l cur : List Char) (acc : List (List Char))
    (h : l.head? ≠ some '\x27') :
    splitLoop .squote ('\x27' :: l) cur acc = splitLoop .normal l (cur ++ ['\x27']) acc := by
  cases l with
  | nil => simp [splitLoop]
  | cons r rs =>
    have hr : r ≠ '\x27' := by simpa using h
    simp [splitLoop, hr]

theorem sl_dquote_close (l cur : List Char) (acc : List (List Char))
    (h : l.head? ≠ some '"') :
    splitLoop .dquote ('"' :: l) cur acc = splitLoop .normal l (cur ++ ['"']) acc := by
  cases l with
  | nil => simp [splitLoop]
  | cons r rs =>
    have hr : r ≠ '"' := by simpa using h
    simp [splitLoop, hr]

theorem stateOK_line {a0 : AState} {s : List Char} (h : stateOK a0 .line s) :
    a0 = .line := by
  cases a0 <;> simp_all [stateOK]

theorem stateOK_block {a0 : AState} {s : List Char} (h : stateOK a0 .block s) :
    a0 = .block ∨ (a0 = .bStar ∧ s.head? ≠ some '/') := by
  cases a0 <;> simp_all [stateOK]

theorem stateOK_squote {a0 : AState} {s : List Char} (h : stateOK a0 .squote s) :
    a0 = .squote ∨ (a0 = .sqEsc ∧ s = []) := by
  cases a0 <;> simp_all [stateOK]

theorem stateOK_dquote {a0 : AState} {s : List Char} (h : stateOK a0 .dquote s) :
    a0 = .dquote := by
  cases a0 <;> simp_all [stateOK]

/-- Rescanning a statement whose scan ends in an acceptable state, followed by
a semicolon, appends exactly that statement to the current accumulation and
closes it at the semicolon. -/
theorem rescanStmt (s : List Char) (a0 : AState) (m : ScanMode) :
    ∀ (cur : List Char) (acc : List (List Char)) (tail : List Char),
      stateOK a0 m s → acceptRun a0 s = true →
      splitLoop m (s ++ ';' :: tail) cur acc =
        splitLoop .normal tail [] (emitStmt (cur ++ s) acc) := by
  have main : ∀ (n : Nat) (s : List Char), s.length ≤ n →
      ∀ (a0 : AState) (m : ScanMode) (cur : List Char) (acc : List (List Char))
        (tail : List Char),
        stateOK a0 m s → acceptRun a0 s = true →
        splitLoop m (s ++ ';' :: tail) cur acc =
          splitLoop .normal tail [] (emitStmt (cur ++ s) acc) := by
    intro n
    induction n with
    | zero =>
      intro s hs a0 m cur acc tail hok hacc
      have hz : s = [] := by
        cases s
        · rfl
        · simp at hs
      subst hz
      cases m with
      | normal => simp [splitLoop]
      | line =>
        obtain rfl := stateOK_line hok
        simp [acceptRun_nil, acceptish] at hacc
      | block =>
        rcases stateOK_block hok with rfl | ⟨rfl, _⟩ <;> simp [acceptRun_nil, acceptish] at hacc
      | squote =>
        rcases stateOK_squote hok with rfl | ⟨rfl, _⟩ <;> simp [acceptRun_nil, acceptish] at hacc
      | dquote =>
        obtain rfl := stateOK_dquote hok
        simp [acceptRun_nil, acceptish] at hacc
    | succ n IH =>
      intro s hs a0 m cur acc tail hok hacc
      cases m with
      | normal =>
        cases s with
        | nil => simp [splitLoop]
        | cons c s1 =>
          have hsn := stepA_normal_of hok
          by_cases h5 : c = ';'
          · subst h5
            rw [acceptRun_cons_none (by simp [hsn, stepNormal]) s1] at hacc
            simp at hacc
          · by_cases h1 : c = '-'
            · subst h1
              rw [acceptRun_cons_of (show stepA a0 '-' = some .nDash by
                simp [hsn, stepNormal]) s1] at hacc
              rcases s1 with _ | ⟨d, s2⟩
              · simp only [List.cons_append, List.nil_append]
                rw [sl_norm_plain '-' (';' :: tail) cur acc (by simp) (by simp)
                  (by decide) (by decide) (by decide)]
                simp [splitLoop]
              · by_cases hd : d = '-'
                · subst hd
                  rw [acceptRun_cons_of (show stepA .nDash '-' = some .line by decide) s2] at hacc
                  have hrec := IH s2 (by simp only [List.length_cons] at hs ⊢; omega) .line .line (cur ++ ['-', '-']) acc tail
                    (by simp [stateOK]) hacc
                  simp only [List.cons_append] at hrec ⊢
                  rw [show splitLoop .normal ('-' :: '-' :: (s2 ++ ';' :: tail)) cur acc =
                        splitLoop .line (s2 ++ ';' :: tail) (cur ++ ['-', '-']) acc from
                      by simp [splitLoop]]
                  rw [hrec]
                  simp
                · have hrec := IH (d :: s2) (by simp only [List.length_cons] at hs ⊢; omega) .nDash .normal (cur ++ ['-']) acc tail
                    (by simp [stateOK, hd]) hacc
                  simp only [List.cons_append] at hrec ⊢
                  rw [sl_norm_plain '-' (d :: (s2 ++ ';' :: tail)) cur acc (by simp [hd])
                    (by simp) (by decide) (by decide) (by decide)]
                  rw [hrec]
                  simp
            · by_cases h2 : c = '/'
              · subst h2
                rw [acceptRun_cons_of (show stepA a0 '/' = some .nSlash by
                  simp [hsn, stepNormal]) s1] at hacc
                rcases s1 with _ | ⟨d, s2⟩
                · simp only [List.cons_append, List.nil_append]
                  rw [sl_norm_plain '/' (';' :: tail) cur acc (by simp) (by simp)
                    (by decide) (by decide) (by decide)]
                  simp [splitLoop]
                · by_cases hd : d = '*'
                  · subst hd
                    rw [acceptRun_cons_of (show stepA .nSlash '*' = some .block by decide) s2] at hacc
                    have hrec := IH s2 (by simp only [List.length_cons] at hs ⊢; omega) .block .block (cur ++ ['/', '*']) acc tail
                      (by simp [stateOK]) hacc
                    simp only [List.cons_append] at hrec ⊢
                    rw [show splitLoop .normal ('/' :: '*' :: (s2 ++ ';' :: tail)) cur acc =
                          splitLoop .block (s2 ++ ';' :: tail) (cur ++ ['/', '*']) acc from
                        by simp [splitLoop]]
                    rw [hrec]
                    simp
                  · have hrec := IH (d :: s2) (by simp only [List.length_cons] at hs ⊢; omega) .nSlash .normal (cur ++ ['/']) acc tail
                      (by simp [stateOK, hd]) hacc
                    simp only [List.cons_append] at hrec ⊢
                    rw [sl_norm_plain '/' (d :: (s2 ++ ';' :: tail)) cur acc (by simp)
                      (by simp [hd]) (by decide) (by decide) (by decide)]
                    rw [hrec]
                    simp
              · by_cases h3 : c = '\x27'
                · subst h3
                  rw [acceptRun_cons_of (show stepA a0 '\x27' = some .squote by
                    simp [hsn, stepNormal]) s1] at hacc
                  have hrec := IH s1 (by simp only [List.length_cons] at hs ⊢; omega) .squote .squote (cur ++ ['\x27']) acc tail
                    (by simp [stateOK]) hacc
                  simp only [List.cons_append] at hrec ⊢
                  rw [show splitLoop .normal ('\x27' :: (s1 ++ ';' :: tail)) cur acc =
                        splitLoop .squote (s1 ++ ';' :: tail) (cur ++ ['\x27']) acc from
                      by simp [splitLoop]]
                  rw [hrec]
                  simp
                · by_cases h4 : c = '"'
                  · subst h4
                    rw [acceptRun_cons_of (show stepA a0 '"' = some .dquote by
                      simp [hsn, stepNormal, h1, h2, h3]) s1] at hacc
                    have hrec := IH s1 (by simp only [List.length_cons] at hs ⊢; omega) .dquote .dquote (cur ++ ['"']) acc tail
                      (by simp [stateOK]) hacc
                    simp only [List.cons_append] at hrec ⊢
                    rw [show splitLoop .normal ('"' :: (s1 ++ ';' :: tail)) cur acc =
                          splitLoop .dquote (s1 ++ ';' :: tail) (cur ++ ['"']) acc from
                        by simp [splitLoop]]
                    rw [hrec]
                    simp
                  · rw [acceptRun_cons_of
                      (show stepA a0 c = some .normal by
                        simp [hsn, stepNormal, h1, h2, h3, h4, h5]) s1] at hacc
                    have hrec := IH s1 (by simp only [List.length_cons] at hs ⊢; omega) .normal .normal (cur ++ [c]) acc tail
                      (by simp [stateOK]) hacc
                    simp only [List.cons_append] at hrec ⊢
                    rw [sl_norm_plain c (s1 ++ ';' :: tail) cur acc (by simp [h1])
                      (by simp [h2]) h3 h4 h5]
                    rw [hrec]
                    simp
      | line =>
        obtain rfl := stateOK_line hok
        cases s with
        | nil => simp [acceptRun_nil, acceptish] at hacc
        | cons c s1 =>
          by_cases hc : c = '\n'
          · subst hc
            rw [acceptRun_cons_of (show stepA .line '\n' = some .normal by decide) s1] at hacc
            have hrec := IH s1 (by simp only [List.length_cons] at hs ⊢; omega) .normal .normal (cur ++ ['\n']) acc tail
              (by simp [stateOK]) hacc
            simp only [List.cons_append] at hrec ⊢
            rw [show splitLoop .line ('\n' :: (s1 ++ ';' :: tail)) cur acc =
                  splitLoop .normal (s1 ++ ';' :: tail) (cur ++ ['\n']) acc from
                by simp [splitLoop]]
            rw [hrec]
            simp
          · rw [acceptRun_cons_of (show stepA .line c = some .line by simp [stepA, hc]) s1] at hacc
            have hrec := IH s1 (by simp only [List.length_cons] at hs ⊢; omega) .line .line (cur ++ [c]) acc tail (by simp [stateOK]) hacc
            simp only [List.cons_append] at hrec ⊢
            rw [sl_line_plain c _ cur acc hc, hrec]
            simp
      | block =>
        cases s with
        | nil =>
          rcases stateOK_block hok with rfl | ⟨rfl, _⟩ <;> simp [acceptRun_nil, acceptish] at hacc
        | cons c s1 =>
          have hsb := stepA_block_of hok
          by_cases hc : c = '*'
          · subst hc
            rw [acceptRun_cons_of (show stepA a0 '*' = some .bStar by simp [hsb]) s1] at hacc
            rcases s1 with _ | ⟨d, s2⟩
            · simp [acceptRun_nil, acceptish] at hacc
            · by_cases hd : d = '/'
              · subst hd
                rw [acceptRun_cons_of (show stepA .bStar '/' = some .normal by decide) s2] at hacc
                have hrec := IH s2 (by simp only [List.length_cons] at hs ⊢; omega) .normal .normal (cur ++ ['*', '/']) acc tail
                  (by simp [stateOK]) hacc
                simp only [List.cons_append] at hrec ⊢
                rw [show splitLoop .block ('*' :: '/' :: (s2 ++ ';' :: tail)) cur acc =
                      splitLoop .normal (s2 ++ ';' :: tail) (cur ++ ['*', '/']) acc from
                    by simp [splitLoop]]
                rw [hrec]
                simp
              · have hrec := IH (d :: s2) (by simp only [List.length_cons] at hs ⊢; omega) .bStar .block (cur ++ ['*']) acc tail
                  (by simp [stateOK, hd]) hacc
                simp only [List.cons_append] at hrec ⊢
                rw [sl_block_plain '*' (d :: (s2 ++ ';' :: tail)) cur acc (by simp [hd]), hrec]
                simp
          · rw [acceptRun_cons_of (show stepA a0 c = some .block by simp [hsb, hc]) s1] at hacc
            have hrec := IH s1 (by simp only [List.length_cons] at hs ⊢; omega) .block .block (cur ++ [c]) acc tail (by simp [stateOK]) hacc
            simp only [List.cons_append] at hrec ⊢
            rw [sl_block_plain c _ cur acc (by simp [hc]), hrec]
            simp
      | squote =>
        rcases stateOK_squote hok with rfl | ⟨rfl, rfl⟩
        · cases s with
          | nil => simp [acceptRun_nil, acceptish] at hacc
          | cons c s1 =>
            by_cases hq : c = '\x27'
            · subst hq
              rw [acceptRun_cons_of (show stepA .squote '\x27' = some .sqQ by decide) s1] at hacc
              rcases s1 with _ | ⟨d, s2⟩
              · simp only [List.cons_append, List.nil_append]
                rw [sl_squote_close (';' :: tail) cur acc (by simp)]
                simp [splitLoop]
              · by_cases hd : d = '\x27'
                · subst hd
                  rw [acceptRun_cons_of (show stepA .sqQ '\x27' = some .squote by decide) s2] at hacc
                  have hrec := IH s2 (by simp only [List.length_cons] at hs ⊢; omega) .squote .squote (cur ++ ['\x27', '\x27']) acc tail
                    (by simp [stateOK]) hacc
                  simp only [List.cons_append] at hrec ⊢
                  rw [show splitLoop .squote ('\x27' :: '\x27' :: (s2 ++ ';' :: tail)) cur acc =
                        splitLoop .squote (s2 ++ ';' :: tail) (cur ++ ['\x27', '\x27']) acc from
                      by simp [splitLoop]]
                  rw [hrec]
                  simp
                · have hrec := IH (d :: s2) (by simp only [List.length_cons] at hs ⊢; omega) .sqQ .normal (cur ++ ['\x27']) acc tail
                    (by simp [stateOK, hd]) hacc
                  simp only [List.cons_append] at hrec ⊢
                  rw [sl_squote_close (d :: (s2 ++ ';' :: tail)) cur acc (by simp [hd]), hrec]
                  simp
            · by_cases hbs : c = '\\'
              · subst hbs
                rw [acceptRun_cons_of (show stepA .squote '\\' = some .sqEsc by decide) s1] at hacc
                rcases s1 with _ | ⟨d, s2⟩
                · simp [acceptRun_nil, acceptish] at hacc
                · rw [acceptRun_cons_of (show stepA .sqEsc d = some .squote from rfl) s2] at hacc
                  have hrec := IH s2 (by simp only [List.length_cons] at hs ⊢; omega) .squote .squote (cur ++ ['\\', d]) acc tail
                    (by simp [stateOK]) hacc
                  simp only [List.cons_append] at hrec ⊢
                  rw [show splitLoop .squote ('\\' :: d :: (s2 ++ ';' :: tail)) cur acc =
                        splitLoop .squote (s2 ++ ';' :: tail) (cur ++ ['\\', d]) acc from
                      by simp [splitLoop]]
                  rw [hrec]
                  simp
              · rw [acceptRun_cons_of
                  (show stepA .squote c = some .squote by simp [stepA, hq, hbs]) s1] at hacc
                have hrec := IH s1 (by simp only [List.length_cons] at hs ⊢; omega) .squote .squote (cur ++ [c]) acc tail
                  (by simp [stateOK]) hacc
                simp only [List.cons_append] at hrec ⊢
                rw [sl_squote_plain c _ cur acc hq (by simp [hbs]), hrec]
                simp
        · simp [acceptRun_nil, acceptish] at hacc
      | dquote =>
        obtain rfl := stateOK_dquote hok
        cases s with
        | nil => simp [acceptRun_nil, acceptish] at hacc
        | cons c s1 =>
          by_cases hq : c = '"'
          · subst hq
            rw [acceptRun_cons_of (show stepA .dquote '"' = some .dqQ by decide) s1] at hacc
            rcases s1 with _ | ⟨d, s2⟩
            · simp only [List.cons_append, List.nil_append]
              rw [sl_dquote_close (';' :: tail) cur acc (by simp)]
              simp [splitLoop]
            · by_cases hd : d = '"'
              · subst hd
                rw [acceptRun_cons_of (show stepA .dqQ '"' = some .dquote by decide) s2] at hacc
                have hrec := IH s2 (by simp only [List.length_cons] at hs ⊢; omega) .dquote .dquote (cur ++ ['"', '"']) acc tail
                  (by simp [stateOK]) hacc
                simp only [List.cons_append] at hrec ⊢
                rw [show splitLoop .dquote ('"' :: '"' :: (s2 ++ ';' :: tail)) cur acc =
                      splitLoop .dquote (s2 ++ ';' :: tail) (cur ++ ['"', '"']) acc from
                    by simp [splitLoop]]
                rw [hrec]
                simp
              · have hrec := IH (d :: s2) (by simp only [List.length_cons] at hs ⊢; omega) .dqQ .normal (cur ++ ['"']) acc tail
                  (by simp [stateOK, hd]) hacc
                simp only [List.cons_append] at hrec ⊢
                rw [sl_dquote_close (d :: (s2 ++ ';' :: tail)) cur acc (by simp [hd]), hrec]
                simp
          · rw [acceptRun_cons_of (show stepA .dquote c = some .dquote by simp [stepA, hq]) s1] at hacc
            have hrec := IH s1 (by simp only [List.length_cons] at hs ⊢; omega) .dquote .dquote (cur ++ [c]) acc tail (by simp [stateOK]) hacc
            simp only [List.cons_append] at hrec ⊢
            rw [sl_dquote_plain c _ cur acc hq, hrec]
            simp
  exact fun cur acc tail hok hacc => main s.length s le_rfl a0 m cur acc tail hok hacc

theorem runAuto_isSome_cons {a b : AState} {c : Char} (h : stepA a c = some b)
    (s : List Char) : (runAuto a (c :: s)).isSome = (runAuto b s).isSome := by
  simp [runAuto, h]

/-- Scanning a final chunk (no trailing semicolon) that never crosses a
statement boundary appends the whole chunk to the current accumulation and
flushes it at end of input. -/
theorem scanFinalChunk (s : List Char) (a0 : AState) (m : ScanMode) :
    ∀ (cur : List Char) (acc : List (List Char)),
      stateOK a0 m s → (runAuto a0 s).isSome = true →
      splitLoop m s cur acc = emitStmt (cur ++ s) acc := by
  have main : ∀ (n : Nat) (s : List Char), s.length ≤ n →
      ∀ (a0 : AState) (m : ScanMode) (cur : List Char) (acc : List (List Char)),
        stateOK a0 m s → (runAuto a0 s).isSome = true →
        splitLoop m s cur acc = emitStmt (cur ++ s) acc := by
    intro n
    induction n with
    | zero =>
      intro s hs a0 m cur acc _ _
      have hz : s = [] := by
        cases s
        · rfl
        · simp at hs
      subst hz
      cases m <;> simp [splitLoop]
    | succ n IH =>
      intro s hs a0 m cur acc hok hsome
      cases s with
      | nil => cases m <;> simp [splitLoop]
      | cons c s1 =>
        have hlen : s1.length ≤ n := by simp only [List.length_cons] at hs; omega
        cases m with
        | normal =>
          have hsn := stepA_normal_of hok
          by_cases h5 : c = ';'
          · subst h5
            rw [show runAuto a0 (';' :: s1) = none by
              simp [runAuto, hsn, stepNormal]] at hsome
            simp at hsome
          · by_cases h1 : c = '-'
            · subst h1
              rw [runAuto_isSome_cons (show stepA a0 '-' = some .nDash by
                simp [hsn, stepNormal]) s1] at hsome
              by_cases hd : s1.head? = some '-'
              · obtain ⟨s2, rfl⟩ : ∃ s2, s1 = '-' :: s2 := by
                  cases s1 with
                  | nil => simp at hd
                  | cons x xs =>
                    simp only [List.head?_cons, Option.some.injEq] at hd
                    exact ⟨xs, by rw [hd]⟩
                rw [runAuto_isSome_cons (show stepA .nDash '-' = some .line by decide) s2]
                  at hsome
                rw [show splitLoop .normal ('-' :: '-' :: s2) cur acc =
                      splitLoop .line s2 (cur ++ ['-', '-']) acc from by simp [splitLoop]]
                rw [IH s2 (by simp only [List.length_cons] at hs ⊢; omega) .line .line _ acc
                  (by simp [stateOK]) hsome]
                simp
              · rw [sl_norm_plain '-' s1 cur acc (fun _ => hd) (by simp)
                  (by decide) (by decide) (by decide)]
                rw [IH s1 hlen .nDash .normal _ acc (by simpa [stateOK] using hd) hsome]
                simp
            · by_cases h2 : c = '/'
              · subst h2
                rw [runAuto_isSome_cons (show stepA a0 '/' = some .nSlash by
                  simp [hsn, stepNormal]) s1] at hsome
                by_cases hd : s1.head? = some '*'
                · obtain ⟨s2, rfl⟩ : ∃ s2, s1 = '*' :: s2 := by
                    cases s1 with
                    | nil => simp at hd
                    | cons x xs =>
                      simp only [List.head?_cons, Option.some.injEq] at hd
                      exact ⟨xs, by rw [hd]⟩
                  rw [runAuto_isSome_cons (show stepA .nSlash '*' = some .block by decide) s2]
                    at hsome
                  rw [show splitLoop .normal ('/' :: '*' :: s2) cur acc =
                        splitLoop .block s2 (cur ++ ['/', '*']) acc from by simp [splitLoop]]
                  rw [IH s2 (by simp only [List.length_cons] at hs ⊢; omega) .block .block _ acc
                    (by simp [stateOK]) hsome]
                  simp
                · rw [sl_norm_plain '/' s1 cur acc (by simp) (fun _ => hd)
                    (by decide) (by decide) (by decide)]
                  rw [IH s1 hlen .nSlash .normal _ acc (by simpa [stateOK] using hd) hsome]
                  simp
              · by_cases h3 : c = '\x27'
                · subst h3
                  rw [runAuto_isSome_cons (show stepA a0 '\x27' = some .squote by
                    simp [hsn, stepNormal]) s1] at hsome
                  rw [show splitLoop .normal ('\x27' :: s1) cur acc =
                        splitLoop .squote s1 (cur ++ ['\x27']) acc from by simp [splitLoop]]
                  rw [IH s1 hlen .squote .squote _ acc (by simp [stateOK]) hsome]
                  simp
                · by_cases h4 : c = '"'
                  · subst h4
                    rw [runAuto_isSome_cons (show stepA a0 '"' = some .dquote by
                      simp [hsn, stepNormal, h1, h2, h3]) s1] at hsome
                    rw [show splitLoop .normal ('"' :: s1) cur acc =
                          splitLoop .dquote s1 (cur ++ ['"']) acc from by simp [splitLoop]]
                    rw [IH s1 hlen .dquote .dquote _ acc (by simp [stateOK]) hsome]
                    simp
                  · rw [runAuto_isSome_cons (show stepA a0 c = some .normal by
                      simp [hsn, stepNormal, h1, h2, h3, h4, h5]) s1] at hsome
                    rw [sl_norm_plain c s1 cur acc (by simp [h1]) (by simp [h2]) h3 h4 h5]
                    rw [IH s1 hlen .normal .normal _ acc (by simp [stateOK]) hsome]
                    simp
        | line =>
          obtain rfl := stateOK_line hok
          by_cases hc : c = '\n'
          · subst hc
            rw [runAuto_isSome_cons (show stepA .line '\n' = some .normal by decide) s1]
              at hsome
            rw [show splitLoop .line ('\n' :: s1) cur acc =
                  splitLoop .normal s1 (cur ++ ['\n']) acc from by simp [splitLoop]]
            rw [IH s1 hlen .normal .normal _ acc (by simp [stateOK]) hsome]
            simp
          · rw [runAuto_isSome_cons (show stepA .line c = some .line by simp [stepA, hc]) s1]
              at hsome
            rw [sl_line_plain c s1 cur acc hc]
            rw [IH s1 hlen .line .line _ acc (by simp [stateOK]) hsome]
            simp
        | block =>
          have hsb := stepA_block_of hok
          by_cases hc : c = '*'
          · subst hc
            rw [runAuto_isSome_cons (show stepA a0 '*' = some .bStar by simp [hsb]) s1]
              at hsome
            by_cases hd : s1.head? = some '/'
            · obtain ⟨s2, rfl⟩ : ∃ s2, s1 = '/' :: s2 := by
                cases s1 with
                | nil => simp at hd
                | cons x xs =>
                  simp only [List.head?_cons, Option.some.injEq] at hd
                  exact ⟨xs, by rw [hd]⟩
              rw [runAuto_isSome_cons (show stepA .bStar '/' = some .normal by decide) s2]
                at hsome
              rw [show splitLoop .block ('*' :: '/' :: s2) cur acc =
                    splitLoop .normal s2 (cur ++ ['*', '/']) acc from by simp [splitLoop]]
              rw [IH s2 (by simp only [List.length_cons] at hs ⊢; omega) .normal .normal _ acc
                (by simp [stateOK]) hsome]
              simp
            · rw [sl_block_plain '*' s1 cur acc (fun _ => hd)]
              rw [IH s1 hlen .bStar .block _ acc (by simpa [stateOK] using hd) hsome]
              simp
          · rw [runAuto_isSome_cons (show stepA a0 c = some .block by simp [hsb, hc]) s1]
              at hsome
            rw [sl_block_plain c s1 cur acc (by simp [hc])]
            rw [IH s1 hlen .block .block _ acc (by simp [stateOK]) hsome]
            simp
        | squote =>
          rcases stateOK_squote hok with rfl | ⟨rfl, heq⟩
          · by_cases hq : c = '\x27'
            · subst hq
              rw [runAuto_isSome_cons (show stepA .squote '\x27' = some .sqQ by decide) s1]
                at hsome
              by_cases hd : s1.head? = some '\x27'
              · obtain ⟨s2, rfl⟩ : ∃ s2, s1 = '\x27' :: s2 := by
                  cases s1 with
                  | nil => simp at hd
                  | cons x xs =>
                    simp only [List.head?_cons, Option.some.injEq] at hd
                    exact ⟨xs, by rw [hd]⟩
                rw [runAuto_isSome_cons (show stepA .sqQ '\x27' = some .squote by decide) s2]
                  at hsome
                rw [show splitLoop .squote ('\x27' :: '\x27' :: s2) cur acc =
                      splitLoop .squote s2 (cur ++ ['\x27', '\x27']) acc from by simp [splitLoop]]
                rw [IH s2 (by simp only [List.length_cons] at hs ⊢; omega) .squote .squote _ acc
                  (by simp [stateOK]) hsome]
                simp
              · rw [sl_squote_close s1 cur acc hd]
                rw [IH s1 hlen .sqQ .normal _ acc (by simpa [stateOK] using hd) hsome]
                simp
            · by_cases hbs : c = '\\'
              · subst hbs
                rw [runAuto_isSome_cons (show stepA .squote '\\' = some .sqEsc by decide) s1]
                  at hsome
                cases s1 with
                | nil =>
                  rw [sl_squote_plain '\\' [] cur acc (by decide) (fun _ => rfl)]
                  rw [IH [] (by omega) .sqEsc .squote _ acc (by simp [stateOK]) hsome]
                  simp
                | cons d s2 =>
                  rw [runAuto_isSome_cons (show stepA .sqEsc d = some .squote from rfl) s2]
                    at hsome
                  rw [show splitLoop .squote ('\\' :: d :: s2) cur acc =
                        splitLoop .squote s2 (cur ++ ['\\', d]) acc from by simp [splitLoop]]
                  rw [IH s2 (by simp only [List.length_cons] at hs ⊢; omega) .squote .squote _ acc
                    (by simp [stateOK]) hsome]
                  simp
              · rw [runAuto_isSome_cons (show stepA .squote c = some .squote by
                  simp [stepA, hq, hbs]) s1] at hsome
                rw [sl_squote_plain c s1 cur acc hq (by simp [hbs])]
                rw [IH s1 hlen .squote .squote _ acc (by simp [stateOK]) hsome]
                simp
          · simp at heq
        | dquote =>
          obtain rfl := stateOK_dquote hok
          by_cases hq : c = '"'
          · subst hq
            rw [runAuto_isSome_cons (show stepA .dquote '"' = some .dqQ by decide) s1]
              at hsome
            by_cases hd : s1.head? = some '"'
            · obtain ⟨s2, rfl⟩ : ∃ s2, s1 = '"' :: s2 := by
                cases s1 with
                | nil => simp at hd
                | cons x xs =>
                  simp only [List.head?_cons, Option.some.injEq] at hd
                  exact ⟨xs, by rw [hd]⟩
              rw [runAuto_isSome_cons (show stepA .dqQ '"' = some .dquote by decide) s2]
                at hsome
              rw [show splitLoop .dquote ('"' :: '"' :: s2) cur acc =
                    splitLoop .dquote s2 (cur ++ ['"', '"']) acc from by simp [splitLoop]]
              rw [IH s2 (by simp only [List.length_cons] at hs ⊢; omega) .dquote .dquote _ acc
                (by simp [stateOK]) hsome]
              simp
            · rw [sl_dquote_close s1 cur acc hd]
              rw [IH s1 hlen .dqQ .normal _ acc (by simpa [stateOK] using hd) hsome]
              simp
          · rw [runAuto_isSome_cons (show stepA .dquote c = some .dquote by
              simp [stepA, hq]) s1] at hsome
            rw [sl_dquote_plain c s1 cur acc hq]
            rw [IH s1 hlen .dquote .dquote _ acc (by simp [stateOK]) hsome]
            simp
  exact fun cur acc hok hsome => main s.length s le_rfl a0 m cur acc hok hsome

theorem emitStmt_trimmed {s : List Char} (h1 : trimSpace s = s) (h2 : s ≠ [])
    (acc : List (List Char)) : emitStmt s acc = acc ++ [s] := by
  have : (trimSpace s).isEmpty = false := by
    rw [h1]
    simpa [List.isEmpty_iff] using h2
  simp [emitStmt, this, h1, h2]

/-- Re-splitting the semicolon-join of a list of well-formed statements (each
trimmed, non-empty, non-final ones rescanning to an acceptable state, the last
one rescanning without hitting a bare semicolon) reproduces the list. -/
theorem rescanChain : ∀ (L : List (List Char)),
    (∀ s ∈ L, trimSpace s = s ∧ s ≠ []) →
    (∀ s ∈ L.dropLast, acceptRun .normal s = true) →
    (∀ s, L.getLast? = some s → (runAuto .normal s).isSome = true) →
    SplitStatements (joinSemi L) = L := by
  intro L
  induction L with
  | nil => intro _ _ _; rfl
  | cons s L2 ih =>
    intro hP1 hAcc hLast
    cases L2 with
    | nil =>
      have hs := hP1 s (by simp)
      have hsome := hLast s (by simp)
      rw [show joinSemi [s] = s from rfl]
      rw [SplitStatements, scanFinalChunk s .normal .normal [] [] (by simp [stateOK]) hsome]
      simp [emitStmt_trimmed hs.1 hs.2]
    | cons t L3 =>
      have hs := hP1 s (by simp)
      have hsacc : acceptRun .normal s = true := by
        apply hAcc
        rw [List.dropLast_cons₂]
        simp
      rw [show joinSemi (s :: t :: L3) = s ++ ';' :: joinSemi (t :: L3) from rfl]
      rw [SplitStatements,
        rescanStmt s .normal .normal [] [] (joinSemi (t :: L3)) (by simp [stateOK]) hsacc]
      rw [show emitStmt ([] ++ s) [] = [s] ++ [] from by
        simpa using emitStmt_trimmed hs.1 hs.2 []]
      rw [splitLoop_acc .normal (joinSemi (t :: L3)) [] [] [s]]
      rw [show splitLoop .normal (joinSemi (t :: L3)) [] [] = SplitStatements (joinSemi (t :: L3))
        from rfl]
      rw [ih (fun x hx => hP1 x (by simp [hx]))
        (fun x hx => hAcc x (by rw [List.dropLast_cons₂]; simp [hx]))
        (fun x hx => hLast x (by rw [List.getLast?_cons_cons]; exact hx))]
      rfl

theorem hasPrefixL_mono (sub : List Char) : ∀ (v w : List Char),
    hasPrefixL v sub = true → hasPrefixL (v ++ w) sub = true := by
  induction sub with
  | nil => intro v w _; cases v ++ w <;> simp [hasPrefixL]
  | cons p ps ih =>
    intro v w h
    cases v with
    | nil => simp [hasPrefixL] at h
    | cons c v2 =>
      simp only [hasPrefixL, Bool.and_eq_true, decide_eq_true_eq] at h
      simp only [List.cons_append, hasPrefixL, Bool.and_eq_true, decide_eq_true_eq]
      exact ⟨h.1, ih v2 w h.2⟩

theorem containsL_nil (sub : List Char) : containsL [] sub = hasPrefixL [] sub := by
  cases sub with
  | nil => rfl
  | cons p ps => rfl

theorem containsL_cons (c : Char) (t sub : List Char) :
    containsL (c :: t) sub = (hasPrefixL (c :: t) sub || containsL t sub) := by
  have hdef : containsL (c :: t) sub =
      if hasPrefixL (c :: t) sub then true else containsL t sub := rfl
  rw [hdef]
  by_cases h : hasPrefixL (c :: t) sub <;> simp [h]

theorem containsL_self_nil (w : List Char) : containsL w [] = true := by
  cases w with
  | nil => rfl
  | cons c t => simp [containsL_cons, hasPrefixL]

theorem containsL_mono_right (v : List Char) : ∀ (w sub : List Char),
    containsL v sub = true → containsL (v ++ w) sub = true := by
  induction v with
  | nil =>
    intro w sub h
    rw [containsL_nil] at h
    have hsub : sub = [] := by
      cases sub with
      | nil => rfl
      | cons p ps => simp [hasPrefixL] at h
    subst hsub
    simpa using containsL_self_nil w
  | cons c v2 ih =>
    intro w sub h
    rw [containsL_cons, Bool.or_eq_true] at h
    rw [List.cons_append, containsL_cons, Bool.or_eq_true]
    cases h with
    | inl hp =>
      left
      have h2 := hasPrefixL_mono sub (c :: v2) w hp
      simpa using h2
    | inr ht => exact Or.inr (ih w sub ht)

theorem containsL_mono_left (w : List Char) : ∀ (u sub : List Char),
    containsL u sub = true → containsL (w ++ u) sub = true := by
  induction w with
  | nil => intro u sub h; simpa using h
  | cons c w2 ih =>
    intro u sub h
    rw [List.cons_append, containsL_cons, Bool.or_eq_true]
    exact Or.inr (ih u sub h)

theorem hasDD_cons {c : Char} {t : List Char} (h : hasDD (c :: t) = false) :
    hasDD t = false := by
  rw [hasDD, containsL_cons] at h
  simp only [Bool.or_eq_false_iff] at h
  exact h.2

theorem hasDD_left {u v : List Char} (h : hasDD (u ++ v) = false) : hasDD u = false := by
  by_contra hc
  rw [hasDD] at h hc
  simp only [Bool.not_eq_false] at hc
  rw [containsL_mono_right u v _ hc] at h
  cases h

theorem hasDD_right {u v : List Char} (h : hasDD (u ++ v) = false) : hasDD v = false := by
  by_contra hc
  rw [hasDD] at h hc
  simp only [Bool.not_eq_false] at hc
  rw [containsL_mono_left u v _ hc] at h
  cases h

theorem hasDD_dd {t : List Char} : hasDD ('-' :: '-' :: t) = true := by
  rw [hasDD, containsL_cons]
  simp [hasPrefixL]

theorem stepNormal_ne_line (c : Char) : stepNormal c ≠ some .line := by
  unfold stepNormal
  split_ifs <;> simp

theorem stepA_ne_line {a : AState} {c : Char} (ha : a ≠ .line)
    (hd : a = .nDash → c ≠ '-') : stepA a c ≠ some .line := by
  cases a with
  | line => exact absurd rfl ha
  | nDash =>
    rw [stepA, if_neg (hd rfl)]
    exact stepNormal_ne_line c
  | nSlash =>
    rw [stepA]
    split_ifs
    · simp
    · exact stepNormal_ne_line c
  | sqQ =>
    rw [stepA]
    split_ifs
    · simp
    · exact stepNormal_ne_line c
  | dqQ =>
    rw [stepA]
    split_ifs
    · simp
    · exact stepNormal_ne_line c
  | normal => exact stepNormal_ne_line c
  | block => rw [stepA]; split_ifs <;> simp
  | bStar => rw [stepA]; split_ifs <;> simp
  | squote => rw [stepA]; split_ifs <;> simp
  | sqEsc => rw [stepA]; simp
  | dquote => rw [stepA]; split_ifs <;> simp

theorem stepA_nDash_char {a : AState} {c : Char} (h : stepA a c = some .nDash) :
    c = '-' := by
  by_contra hc
  have hn : stepNormal c ≠ some .nDash := by
    unfold stepNormal
    split_ifs <;> simp_all
  cases a with
  | normal => exact hn h
  | nDash =>
    rw [stepA, if_neg hc] at h
    exact hn h
  | nSlash =>
    rw [stepA] at h
    split_ifs at h
    · simp at h
    · exact hn h
  | line =>
    rw [stepA] at h
    split_ifs at h <;> simp at h
  | block =>
    rw [stepA] at h
    split_ifs at h <;> simp at h
  | bStar =>
    rw [stepA] at h
    split_ifs at h <;> simp at h
  | squote =>
    rw [stepA] at h
    split_ifs at h <;> simp at h
  | sqEsc =>
    rw [stepA] at h
    simp at h
  | sqQ =>
    rw [stepA] at h
    split_ifs at h
    · simp at h
    · exact hn h
  | dquote =>
    rw [stepA] at h
    split_ifs at h <;> simp at h
  | dqQ =>
    rw [stepA] at h
    split_ifs at h
    · simp at h
    · exact hn h

theorem notLine_run : ∀ (v : List Char) (a : AState), a ≠ .line →
    (a = .nDash → v.head? ≠ some '-') → hasDD v = false →
    runAuto a v ≠ some .line := by
  intro v
  induction v with
  | nil => intro a ha _ _; simpa [runAuto] using ha
  | cons c v2 ih =>
    intro a ha hd hdd
    rw [runAuto]
    cases hb : stepA a c with
    | none => simp
    | some b =>
      have hbne : b ≠ .line := by
        intro hbl
        subst hbl
        exact stepA_ne_line ha (fun haD => by simpa using hd haD) hb
      have hbd : b = .nDash → v2.head? ≠ some '-' := by
        intro hbD hv2
        subst hbD
        have hc : c = '-' := stepA_nDash_char hb
        subst hc
        obtain ⟨v3, rfl⟩ : ∃ v3, v2 = '-' :: v3 := by
          cases v2 with
          | nil => simp at hv2
          | cons x xs =>
            simp only [List.head?_cons, Option.some.injEq] at hv2
            exact ⟨xs, by rw [hv2]⟩
        rw [hasDD_dd] at hdd
        cases hdd
      exact ih b hbne hbd (hasDD_cons hdd)

theorem goIsSpace_cases {c : Char} (h : goIsSpace c = true) :
    c = ' ' ∨ c = '\t' ∨ c = '\n' ∨ c = Char.ofNat 11 ∨ c = Char.ofNat 12 ∨
    c = '\r' ∨ c = Char.ofNat 133 ∨ c = Char.ofNat 160 := by
  simp [goIsSpace] at h
  tauto

theorem stepA_normal_space {c : Char} (h : goIsSpace c = true) :
    stepA .normal c = some .normal := by
  rcases goIsSpace_cases h with rfl | rfl | rfl | rfl | rfl | rfl | rfl | rfl <;> decide

theorem runAuto_normal_spaces : ∀ (ws u : List Char),
    (∀ c ∈ ws, goIsSpace c = true) →
    runAuto .normal (ws ++ u) = runAuto .normal u := by
  intro ws
  induction ws with
  | nil => intro u _; rfl
  | cons c ws2 ih =>
    intro u h
    rw [List.cons_append, runAuto, stepA_normal_space (h c (by simp))]
    exact ih u (fun x hx => h x (by simp [hx]))

theorem space_step_region {b : AState} {c : Char}
    (hb : b = .block ∨ b = .bStar ∨ b = .squote ∨ b = .sqEsc ∨ b = .dquote)
    (hc : goIsSpace c = true) :
    ∃ b2, stepA b c = some b2 ∧
      (b2 = .block ∨ b2 = .bStar ∨ b2 = .squote ∨ b2 = .sqEsc ∨ b2 = .dquote) := by
  rcases hb with rfl | rfl | rfl | rfl | rfl <;>
    rcases goIsSpace_cases hc with rfl | rfl | rfl | rfl | rfl | rfl | rfl | rfl <;>
    exact ⟨_, rfl, by decide⟩

theorem space_run_region : ∀ (ws : List Char) (b : AState),
    (∀ c ∈ ws, goIsSpace c = true) →
    (b = .block ∨ b = .bStar ∨ b = .squote ∨ b = .sqEsc ∨ b = .dquote) →
    ∃ b2, runAuto b ws = some b2 ∧
      (b2 = .block ∨ b2 = .bStar ∨ b2 = .squote ∨ b2 = .sqEsc ∨ b2 = .dquote) := by
  intro ws
  induction ws with
  | nil => intro b _ hb; exact ⟨b, rfl, hb⟩
  | cons c ws2 ih =>
    intro b h hb
    obtain ⟨b1, hstep, hb1⟩ := space_step_region hb (h c (by simp))
    obtain ⟨b2, hrun, hb2⟩ := ih b1 (fun x hx => h x (by simp [hx])) hb1
    refine ⟨b2, ?_, hb2⟩
    rw [runAuto, hstep]
    exact hrun

theorem acceptRun_isSome {a : AState} {s : List Char} (h : acceptRun a s = true) :
    (runAuto a s).isSome = true := by
  unfold acceptRun at h
  cases hr : runAuto a s with
  | none => rw [hr] at h; simp at h
  | some b => rfl

theorem stateOK_normal_accept {a0 : AState} {s : List Char} (h : stateOK a0 .normal s) :
    acceptish a0 = true := by
  cases a0 <;> simp_all [stateOK, acceptish]

theorem trimLeft_decomp (u : List Char) :
    u = u.takeWhile goIsSpace ++ trimLeft u :=
  (List.takeWhile_append_dropWhile goIsSpace u).symm

theorem trimLeft_spaces (u : List Char) : ∀ c ∈ u.takeWhile goIsSpace, goIsSpace c = true :=
  fun _ hc => List.mem_takeWhile_imp hc

theorem trimRight_decomp (v : List Char) :
    v = trimRight v ++ (v.reverse.takeWhile goIsSpace).reverse := by
  have h : List.takeWhile goIsSpace v.reverse ++ List.dropWhile goIsSpace v.reverse =
      v.reverse := List.takeWhile_append_dropWhile goIsSpace v.reverse
  have h2 := congrArg List.reverse h
  rw [List.reverse_append, List.reverse_reverse] at h2
  exact h2.symm

theorem trimRight_spaces (v : List Char) :
    ∀ c ∈ (v.reverse.takeWhile goIsSpace).reverse, goIsSpace c = true := by
  intro c hc
  rw [List.mem_reverse] at hc
  exact List.mem_takeWhile_imp hc

theorem runAuto_trimLeft (u : List Char) :
    runAuto .normal (trimLeft u) = runAuto .normal u := by
  conv_rhs => rw [trimLeft_decomp u]
  rw [runAuto_normal_spaces (u.takeWhile goIsSpace) (trimLeft u) (trimLeft_spaces u)]

theorem hasDD_trimLeft {u : List Char} (h : hasDD u = false) :
    hasDD (trimLeft u) = false := by
  have h2 : hasDD (u.takeWhile goIsSpace ++ trimLeft u) = false := by
    rw [← trimLeft_decomp u]
    exact h
  exact hasDD_right h2

theorem hasDD_trimSpace {u : List Char} (h : hasDD u = false) :
    hasDD (trimSpace u) = false := by
  have h1 : hasDD (trimLeft u) = false := hasDD_trimLeft h
  have h2 : hasDD (trimRight (trimLeft u) ++
      ((trimLeft u).reverse.takeWhile goIsSpace).reverse) = false := by
    rw [← trimRight_decomp (trimLeft u)]
    exact h1
  exact hasDD_left h2

theorem runAuto_trim {u : List Char} {a : AState} (hrun : runAuto .normal u = some a) :
    ∃ b ws, runAuto .normal (trimSpace u) = some b ∧ runAuto b ws = some a ∧
      (∀ c ∈ ws, goIsSpace c = true) := by
  have hva : runAuto .normal (trimLeft u) = some a := by
    rw [runAuto_trimLeft]
    exact hrun
  have hdec := trimRight_decomp (trimLeft u)
  have hws := trimRight_spaces (trimLeft u)
  have happ := runAuto_append (trimRight (trimLeft u))
    ((trimLeft u).reverse.takeWhile goIsSpace).reverse .normal
  rw [← hdec, hva] at happ
  cases hb : runAuto .normal (trimRight (trimLeft u)) with
  | none =>
    rw [hb] at happ
    simp at happ
  | some b =>
    rw [hb] at happ
    exact ⟨b, ((trimLeft u).reverse.takeWhile goIsSpace).reverse, hb, happ.symm, hws⟩

theorem runAuto_trim_isSome {u : List Char} {a : AState}
    (hrun : runAuto .normal u = some a) :
    (runAuto .normal (trimSpace u)).isSome = true := by
  obtain ⟨b, ws, hb, _, _⟩ := runAuto_trim hrun
  rw [hb]
  rfl

theorem region_run_not_accept {b a : AState} {ws : List Char}
    (hws : ∀ c ∈ ws, goIsSpace c = true)
    (hb : b = .block ∨ b = .bStar ∨ b = .squote ∨ b = .sqEsc ∨ b = .dquote)
    (hrun : runAuto b ws = some a) : acceptish a = false := by
  obtain ⟨b2, hb2, hreg⟩ := space_run_region ws b hws hb
  rw [hrun] at hb2
  obtain rfl : a = b2 := Option.some.inj hb2
  rcases hreg with rfl | rfl | rfl | rfl | rfl <;> rfl

theorem acceptish_of_space_run {b a : AState} {ws : List Char}
    (hws : ∀ c ∈ ws, goIsSpace c = true) (hrun : runAuto b ws = some a)
    (hacc : acceptish a = true) (hbl : b ≠ .line) : acceptish b = true := by
  cases b with
  | normal => rfl
  | nDash => rfl
  | nSlash => rfl
  | sqQ => rfl
  | dqQ => rfl
  | line => exact absurd rfl hbl
  | block =>
    rw [region_run_not_accept hws (by simp) hrun] at hacc
    simp at hacc
  | bStar =>
    rw [region_run_not_accept hws (by simp) hrun] at hacc
    simp at hacc
  | squote =>
    rw [region_run_not_accept hws (by simp) hrun] at hacc
    simp at hacc
  | sqEsc =>
    rw [region_run_not_accept hws (by simp) hrun] at hacc
    simp at hacc
  | dquote =>
    rw [region_run_not_accept hws (by simp) hrun] at hacc
    simp at hacc

theorem acceptRun_trim {u : List Char} {a : AState} (hdd : hasDD u = false)
    (hrun : runAuto .normal u = some a) (hacc : acceptish a = true) :
    acceptRun .normal (trimSpace u) = true := by
  obtain ⟨b, ws, hb, hbw, hws⟩ := runAuto_trim hrun
  have hddt : hasDD (trimSpace u) = false := hasDD_trimSpace hdd
  have hbl : b ≠ .line := by
    intro hEq
    subst hEq
    exact notLine_run (trimSpace u) .normal (by simp) (by simp) hddt hb
  have hab : acceptish b = true := acceptish_of_space_run hws hbw hacc hbl
  unfold acceptRun
  rw [hb]
  exact hab

theorem trimLeft_of_head {c : Char} {t : List Char} (hc : goIsSpace c = false) :
    trimLeft (c :: t) = c :: t := by
  simp [trimLeft, List.dropWhile_cons, hc]

theorem trimLeft_trimLeft (u : List Char) : trimLeft (trimLeft u) = trimLeft u :=
  List.dropWhile_idempotent goIsSpace u

theorem trimRight_trimRight (v : List Char) : trimRight (trimRight v) = trimRight v := by
  unfold trimRight
  rw [List.reverse_reverse, List.dropWhile_idempotent]

theorem trimLeft_trimRight {v : List Char} (h : trimLeft v = v) :
    trimLeft (trimRight v) = trimRight v := by
  cases hw : trimRight v with
  | nil => rfl
  | cons c t =>
    obtain ⟨ws, hdecomp⟩ : ∃ ws, v = trimRight v ++ ws := ⟨_, trimRight_decomp v⟩
    rw [hw] at hdecomp
    have hv : v = c :: (t ++ ws) := by simpa using hdecomp
    rw [hv] at h
    have hc : goIsSpace c = false := by
      by_contra hcc
      simp only [Bool.not_eq_false] at hcc
      rw [trimLeft, List.dropWhile_cons, if_pos hcc] at h
      have hlen := congrArg List.length h
      have hle : (List.dropWhile goIsSpace (t ++ ws)).length ≤ (t ++ ws).length :=
        (List.dropWhile_sublist goIsSpace).length_le
      simp only [List.length_cons] at hlen
      omega
    exact trimLeft_of_head hc

theorem trimSpace_idem (u : List Char) : trimSpace (trimSpace u) = trimSpace u := by
  unfold trimSpace
  rw [trimLeft_trimRight (trimLeft_trimLeft u), trimRight_trimRight]

theorem emitStmt_eq (cur : List Char) (acc : List (List Char)) :
    emitStmt cur acc = if (trimSpace cur).isEmpty then acc else acc ++ [trimSpace cur] :=
  rfl

theorem goodOut_emit {cur : List Char} {acc : List (List Char)} {a0 : AState}
    (hacc : GoodAcc acc) (hrun : runAuto .normal cur = some a0) :
    GoodOut (emitStmt cur acc) := by
  rw [emitStmt_eq]
  by_cases he : (trimSpace cur).isEmpty = true
  · rw [if_pos he]
    refine ⟨fun x hx => ⟨(hacc x hx).1, (hacc x hx).2.1⟩,
      fun x hx => (hacc x (List.dropLast_subset acc hx)).2.2, ?_⟩
    intro x hx
    exact acceptRun_isSome (hacc x (List.mem_of_getLast?_eq_some hx)).2.2
  · rw [if_neg he]
    have hne : trimSpace cur ≠ [] := by
      intro hh
      rw [hh] at he
      exact he rfl
    refine ⟨?_, ?_, ?_⟩
    · intro x hx
      rw [List.mem_append] at hx
      rcases hx with hx | hx
      · exact ⟨(hacc x hx).1, (hacc x hx).2.1⟩
      · rw [List.mem_singleton] at hx
        subst hx
        exact ⟨trimSpace_idem cur, hne⟩
    · intro x hx
      rw [List.dropLast_concat] at hx
      exact (hacc x hx).2.2
    · intro x hx
      rw [List.getLast?_concat] at hx
      obtain rfl : x = trimSpace cur := (Option.some.inj hx).symm
      exact runAuto_trim_isSome hrun

theorem goodAcc_emit {cur : List Char} {acc : List (List Char)} {a0 : AState}
    (hacc : GoodAcc acc) (hdd : hasDD cur = false)
    (hrun : runAuto .normal cur = some a0) (ha : acceptish a0 = true) :
    GoodAcc (emitStmt cur acc) := by
  rw [emitStmt_eq]
  by_cases he : (trimSpace cur).isEmpty = true
  · rw [if_pos he]
    exact hacc
  · rw [if_neg he]
    intro x hx
    rw [List.mem_append] at hx
    rcases hx with hx | hx
    · exact hacc x hx
    · rw [List.mem_singleton] at hx
      subst hx
      have hne : trimSpace cur ≠ [] := by
        intro hh
        rw [hh] at he
        exact he rfl
      exact ⟨trimSpace_idem cur, hne, acceptRun_trim hdd hrun ha⟩

theorem runAuto_snoc {cur : List Char} {a0 b : AState} {c : Char}
    (h : runAuto .normal cur = some a0) (hs : stepA a0 c = some b) :
    runAuto .normal (cur ++ [c]) = some b := by
  rw [runAuto_append, h]
  simp [runAuto, hs]

theorem runAuto_snoc2 {cur : List Char} {a0 b1 b2 : AState} {c d : Char}
    (h : runAuto .normal cur = some a0) (hs1 : stepA a0 c = some b1)
    (hs2 : stepA b1 d = some b2) :
    runAuto .normal (cur ++ [c, d]) = some b2 := by
  rw [runAuto_append, h]
  simp [runAuto, hs1, hs2]

/-- Production invariant: starting compatible with the automaton, with the
current builder rescanning cleanly, no line-comment introducer in the
remaining material, and a well-formed accumulator, the scan loop produces a
well-formed statement list. -/
theorem prodLoop (s : List Char) (a0 : AState) (m : ScanMode) :
    ∀ (cur : List Char) (acc : List (List Char)),
      stateOK a0 m s → runAuto .normal cur = some a0 →
      hasDD (cur ++ s) = false → GoodAcc acc →
      GoodOut (splitLoop m s cur acc) := by
  have main : ∀ (n : Nat) (s : List Char), s.length ≤ n →
      ∀ (a0 : AState) (m : ScanMode) (cur : List Char) (acc : List (List Char)),
        stateOK a0 m s → runAuto .normal cur = some a0 →
        hasDD (cur ++ s) = false → GoodAcc acc →
        GoodOut (splitLoop m s cur acc) := by
    intro n
    induction n with
    | zero =>
      intro s hs a0 m cur acc _ hrun _ hacc
      have hz : s = [] := by
        cases s
        · rfl
        · simp at hs
      subst hz
      rw [show splitLoop m [] cur acc = emitStmt cur acc from by cases m <;> rfl]
      exact goodOut_emit hacc hrun
    | succ n IH =>
      intro s hs a0 m cur acc hok hrun hdd hacc
      cases s with
      | nil =>
        rw [show splitLoop m [] cur acc = emitStmt cur acc from by cases m <;> rfl]
        exact goodOut_emit hacc hrun
      | cons c s1 =>
        have hlen : s1.length ≤ n := by simp only [List.length_cons] at hs; omega
        cases m with
        | line =>
          obtain rfl := stateOK_line hok
          exact absurd hrun (notLine_run cur .normal (by simp) (by simp) (hasDD_left hdd))
        | normal =>
          have hsn := stepA_normal_of hok
          by_cases h5 : c = ';'
          · subst h5
            rw [show splitLoop .normal (';' :: s1) cur acc =
                  splitLoop .normal s1 [] (emitStmt cur acc) from by simp [splitLoop]]
            exact IH s1 hlen .normal .normal [] (emitStmt cur acc) (by simp [stateOK]) rfl
              (by simpa using hasDD_cons (hasDD_right hdd))
              (goodAcc_emit hacc (hasDD_left hdd) hrun (stateOK_normal_accept hok))
          · by_cases h1 : c = '-'
            · subst h1
              by_cases hd : s1.head? = some '-'
              · obtain ⟨s2, rfl⟩ : ∃ s2, s1 = '-' :: s2 := by
                  cases s1 with
                  | nil => simp at hd
                  | cons x xs =>
                    simp only [List.head?_cons, Option.some.injEq] at hd
                    exact ⟨xs, by rw [hd]⟩
                exact absurd (hasDD_right hdd) (by rw [hasDD_dd]; simp)
              · rw [sl_norm_plain '-' s1 cur acc (fun _ => hd) (by simp)
                  (by decide) (by decide) (by decide)]
                refine IH s1 hlen .nDash .normal (cur ++ ['-']) acc
                  (by simpa [stateOK] using hd)
                  (runAuto_snoc hrun (by simp [hsn, stepNormal])) ?_ hacc
                rw [List.append_assoc]
                simpa using hdd
            · by_cases h2 : c = '/'
              · subst h2
                by_cases hd : s1.head? = some '*'
                · obtain ⟨s2, rfl⟩ : ∃ s2, s1 = '*' :: s2 := by
                    cases s1 with
                    | nil => simp at hd
                    | cons x xs =>
                      simp only [List.head?_cons, Option.some.injEq] at hd
                      exact ⟨xs, by rw [hd]⟩
                  rw [show splitLoop .normal ('/' :: '*' :: s2) cur acc =
                        splitLoop .block s2 (cur ++ ['/', '*']) acc from by simp [splitLoop]]
                  refine IH s2 (by simp only [List.length_cons] at hs ⊢; omega) .block .block
                    (cur ++ ['/', '*']) acc (by simp [stateOK])
                    (runAuto_snoc2 hrun
                      (show stepA a0 '/' = some AState.nSlash by simp [hsn, stepNormal])
                      (show stepA AState.nSlash '*' = some AState.block by decide)) ?_ hacc
                  rw [List.append_assoc]
                  simpa using hdd
                · rw [sl_norm_plain '/' s1 cur acc (by simp) (fun _ => hd)
                    (by decide) (by decide) (by decide)]
                  refine IH s1 hlen .nSlash .normal (cur ++ ['/']) acc
                    (by simpa [stateOK] using hd)
                    (runAuto_snoc hrun (by simp [hsn, stepNormal])) ?_ hacc
                  rw [List.append_assoc]
                  simpa using hdd
              · by_cases h3 : c = '\x27'
                · subst h3
                  rw [show splitLoop .normal ('\x27' :: s1) cur acc =
                        splitLoop .squote s1 (cur ++ ['\x27']) acc from by simp [splitLoop]]
                  refine IH s1 hlen .squote .squote (cur ++ ['\x27']) acc (by simp [stateOK])
                    (runAuto_snoc hrun (by simp [hsn, stepNormal])) ?_ hacc
                  rw [List.append_assoc]
                  simpa using hdd
                · by_cases h4 : c = '"'
                  · subst h4
                    rw [show splitLoop .normal ('"' :: s1) cur acc =
                          splitLoop .dquote s1 (cur ++ ['"']) acc from by simp [splitLoop]]
                    refine IH s1 hlen .dquote .dquote (cur ++ ['"']) acc (by simp [stateOK])
                      (runAuto_snoc hrun (by simp [hsn, stepNormal, h1, h2, h3])) ?_ hacc
                    rw [List.append_assoc]
                    simpa using hdd
                  · rw [sl_norm_plain c s1 cur acc (by simp [h1]) (by simp [h2]) h3 h4 h5]
                    refine IH s1 hlen .normal .normal (cur ++ [c]) acc (by simp [stateOK])
                      (runAuto_snoc hrun (by simp [hsn, stepNormal, h1, h2, h3, h4, h5]))
                      ?_ hacc
                    rw [List.append_assoc]
                    simpa using hdd
        | block =>
          have hsb := stepA_block_of hok
          by_cases hc : c = '*'
          · subst hc
            by_cases hd : s1.head? = some '/'
            · obtain ⟨s2, rfl⟩ : ∃ s2, s1 = '/' :: s2 := by
                cases s1 with
                | nil => simp at hd
                | cons x xs =>
                  simp only [List.head?_cons, Option.some.injEq] at hd
                  exact ⟨xs, by rw [hd]⟩
              rw [show splitLoop .block ('*' :: '/' :: s2) cur acc =
                    splitLoop .normal s2 (cur ++ ['*', '/']) acc from by simp [splitLoop]]
              refine IH s2 (by simp only [List.length_cons] at hs ⊢; omega) .normal .normal
                (cur ++ ['*', '/']) acc (by simp [stateOK])
                (runAuto_snoc2 hrun
                  (show stepA a0 '*' = some AState.bStar by simp [hsb])
                  (show stepA AState.bStar '/' = some AState.normal by decide)) ?_ hacc
              rw [List.append_assoc]
              simpa using hdd
            · rw [sl_block_plain '*' s1 cur acc (fun _ => hd)]
              refine IH s1 hlen .bStar .block (cur ++ ['*']) acc
                (by simpa [stateOK] using hd)
                (runAuto_snoc hrun (by simp [hsb])) ?_ hacc
              rw [List.append_assoc]
              simpa using hdd
          · rw [sl_block_plain c s1 cur acc (by simp [hc])]
            refine IH s1 hlen .block .block (cur ++ [c]) acc (by simp [stateOK])
              (runAuto_snoc hrun (by simp [hsb, hc])) ?_ hacc
            rw [List.append_assoc]
            simpa using hdd
        | squote =>
          rcases stateOK_squote hok with rfl | ⟨rfl, heq⟩
          · by_cases hq : c = '\x27'
            · subst hq
              by_cases hd : s1.head? = some '\x27'
              · obtain ⟨s2, rfl⟩ : ∃ s2, s1 = '\x27' :: s2 := by
                  cases s1 with
                  | nil => simp at hd
                  | cons x xs =>
                    simp only [List.head?_cons, Option.some.injEq] at hd
                    exact ⟨xs, by rw [hd]⟩
                rw [show splitLoop .squote ('\x27' :: '\x27' :: s2) cur acc =
                      splitLoop .squote s2 (cur ++ ['\x27', '\x27']) acc from by
                    simp [splitLoop]]
                refine IH s2 (by simp only [List.length_cons] at hs ⊢; omega) .squote .squote
                  (cur ++ ['\x27', '\x27']) acc (by simp [stateOK])
                  (runAuto_snoc2 hrun
                    (show stepA AState.squote '\x27' = some AState.sqQ by decide)
                    (show stepA AState.sqQ '\x27' = some AState.squote by decide)) ?_ hacc
                rw [List.append_assoc]
                simpa using hdd
              · rw [sl_squote_close s1 cur acc hd]
                refine IH s1 hlen .sqQ .normal (cur ++ ['\x27']) acc
                  (by simpa [stateOK] using hd)
                  (runAuto_snoc hrun (by decide)) ?_ hacc
                rw [List.append_assoc]
                simpa using hdd
            · by_cases hbs : c = '\\'
              · subst hbs
                cases s1 with
                | nil =>
                  rw [sl_squote_plain '\\' [] cur acc (by decide) (fun _ => rfl)]
                  refine IH [] (by omega) .sqEsc .squote (cur ++ ['\\']) acc
                    (by simp [stateOK])
                    (runAuto_snoc hrun (by decide)) ?_ hacc
                  rw [List.append_assoc]
                  simpa using hdd
                | cons d s2 =>
                  rw [show splitLoop .squote ('\\' :: d :: s2) cur acc =
                        splitLoop .squote s2 (cur ++ ['\\', d]) acc from by simp [splitLoop]]
                  refine IH s2 (by simp only [List.length_cons] at hs ⊢; omega) .squote .squote
                    (cur ++ ['\\', d]) acc (by simp [stateOK])
                    (runAuto_snoc2 hrun
                      (show stepA AState.squote '\\' = some AState.sqEsc by decide)
                      (show stepA AState.sqEsc d = some AState.squote from rfl)) ?_ hacc
                  rw [List.append_assoc]
                  simpa using hdd
              · rw [sl_squote_plain c s1 cur acc hq (by simp [hbs])]
                refine IH s1 hlen .squote .squote (cur ++ [c]) acc (by simp [stateOK])
                  (runAuto_snoc hrun (by simp [stepA, hq, hbs])) ?_ hacc
                rw [List.append_assoc]
                simpa using hdd
          · simp at heq
        | dquote =>
          obtain rfl := stateOK_dquote hok
          by_cases hq : c = '"'
          · subst hq
            by_cases hd : s1.head? = some '"'
            · obtain ⟨s2, rfl⟩ : ∃ s2, s1 = '"' :: s2 := by
                cases s1 with
                | nil => simp at hd
                | cons x xs =>
                  simp only [List.head?_cons, Option.some.injEq] at hd
                  exact ⟨xs, by rw [hd]⟩
              rw [show splitLoop .dquote ('"' :: '"' :: s2) cur acc =
                    splitLoop .dquote s2 (cur ++ ['"', '"']) acc from by simp [splitLoop]]
              refine IH s2 (by simp only [List.length_cons] at hs ⊢; omega) .dquote .dquote
                (cur ++ ['"', '"']) acc (by simp [stateOK])
                (runAuto_snoc2 hrun
                  (show stepA AState.dquote '"' = some AState.dqQ by decide)
                  (show stepA AState.dqQ '"' = some AState.dquote by decide)) ?_ hacc
              rw [List.append_assoc]
              simpa using hdd
            · rw [sl_dquote_close s1 cur acc hd]
              refine IH s1 hlen .dqQ .normal (cur ++ ['"']) acc
                (by simpa [stateOK] using hd)
                (runAuto_snoc hrun (by decide)) ?_ hacc
              rw [List.append_assoc]
              simpa using hdd
          · rw [sl_dquote_plain c s1 cur acc hq]
            refine IH s1 hlen .dquote .dquote (cur ++ [c]) acc (by simp [stateOK])
              (runAuto_snoc hrun (by simp [stepA, hq])) ?_ hacc
            rw [List.append_assoc]
            simpa using hdd
  exact fun cur acc hok hrun hdd hacc => main s.length s le_rfl a0 m cur acc hok hrun hdd hacc

theorem splitStatements_good {text : List Char} (hdd : hasDD text = false) :
    GoodOut (SplitStatements text) :=
  prodLoop text .normal .normal [] [] (by simp [stateOK]) rfl (by simpa using hdd)
    (by simp [GoodAcc])

/-- C4 (corrected): for a text with no unterminated quotes AND no `--`
line-comment introducer, splitting, joining the statements with ";" and
splitting again reproduces the same statement sequence.  (The quote condition
of the original claim alone is not sufficient: see the counterexample.) -/
theorem claim_C4 (text : List Char) (hdd : hasDD text = false)
    (_hq : quotesClosed text = true) :
    SplitStatements (joinSemi (SplitStatements text)) = SplitStatements text := by
  obtain ⟨hP1, hP2, hP3⟩ := splitStatements_good hdd
  exact rescanChain (SplitStatements text) hP1 hP2 hP3

/-- C4 counterexample: `"SELECT 1 -- c\n; SELECT 2"` has no unterminated
quote, yet the round trip fails: trimming drops the newline that closed the
`--` line comment of the first statement, so on the re-split the appended
`;` and the following statement are swallowed by the comment. -/
theorem claim_C4_cex :
    quotesClosed ("SELECT 1 -- c\n; SELECT 2".toList) = true ∧
    SplitStatements (joinSemi (SplitStatements ("SELECT 1 -- c\n; SELECT 2".toList))) ≠
      SplitStatements ("SELECT 1 -- c\n; SELECT 2".toList) := by
  constructor
  · decide
  · decide

theorem claim_C4_witness :
    hasDD ("SELECT 1; SELECT 2".toList) = false ∧
    quotesClosed ("SELECT 1; SELECT 2".toList) = true ∧
    SplitStatements (joinSemi (SplitStatements ("SELECT 1; SELECT 2".toList))) =
      SplitStatements ("SELECT 1; SELECT 2".toList) :=
  ⟨by decide, by decide, claim_C4 ("SELECT 1; SELECT 2".toList) (by decide) (by decide)⟩

end Dibber
